import Mathlib

/-!
Shallow embedding of the federated retrieval and personalization engine
(harvey_backend): `app/core/rag_bridge.py`, `app/core/personalization.py`,
`scripts/calculate_centroids.py`.

Numeric values are modelled by exact rationals (`ℚ`); Python lists of
floats become `List ℚ`.  Python dict-based hit records become a structure
with `Option` fields for keys that may be absent.  `list.sort(key=...,
reverse=True)` / `sorted(..., reverse=True)` are modelled by a stable
descending insertion sort, which produces the same output as Python's
stable sort for every key function.
-/

/-- A vector of rationals, modelling a numpy float array. -/
abbrev Vec := List ℚ

/-- Dot product, modelling `np.dot` on equal-length vectors. -/
def dotQ (a b : Vec) : ℚ := (List.zipWith (· * ·) a b).sum

/-- Squared L2 norm (`np.linalg.norm(v) ** 2`). -/
def normSq (v : Vec) : ℚ := dotQ v v

/-- Elementwise vector addition. -/
def vadd (a b : Vec) : Vec := List.zipWith (· + ·) a b

/-- Scalar multiplication. -/
def smul (c : ℚ) (v : Vec) : Vec := v.map (fun x => c * x)

/-- Elementwise sum of a list of vectors (`np.sum(vectors, axis=0)`). -/
def sumVecs : List Vec → Vec
  | [] => []
  | v :: vs => vs.foldl vadd v

/-- Elementwise mean of a nonempty list of vectors (`np.mean(vectors, axis=0)`). -/
def meanVec (l : List Vec) : Vec := smul (1 / (l.length : ℚ)) (sumVecs l)

/-- Insert `x` into a descending-sorted list, before the first element whose
key is not greater than `key x`.  This is the insertion step of a stable
descending sort: an element inserted earlier in the recursion (hence
originally earlier in the list) ends up before later elements of equal key. -/
def insertDesc {α : Type} (key : α → ℚ) (x : α) : List α → List α
  | [] => [x]
  | y :: ys => if key x < key y then y :: insertDesc key x ys else x :: y :: ys

/-- Stable descending sort by a rational key, modelling Python's
`sorted(l, key=key, reverse=True)` (Python's sort is stable). -/
def sortByDesc {α : Type} (key : α → ℚ) : List α → List α
  | [] => []
  | x :: xs => insertDesc key x (sortByDesc key xs)

theorem insertDesc_perm {α : Type} (key : α → ℚ) (x : α) (l : List α) :
    List.Perm (insertDesc key x l) (x :: l) := by
  induction l with
  | nil => simp [insertDesc]
  | cons y ys ih =>
    simp only [insertDesc]
    split
    · exact ((ih.cons y).trans (List.Perm.swap x y ys))
    · exact List.Perm.refl _

theorem sortByDesc_perm {α : Type} (key : α → ℚ) (l : List α) :
    List.Perm (sortByDesc key l) l := by
  induction l with
  | nil => simp [sortByDesc]
  | cons x xs ih =>
    exact (insertDesc_perm key x (sortByDesc key xs)).trans (ih.cons x)

theorem mem_insertDesc {α : Type} {key : α → ℚ} {x z : α} {l : List α} :
    z ∈ insertDesc key x l ↔ z = x ∨ z ∈ l := by
  constructor
  · intro h
    have := (insertDesc_perm key x l).mem_iff.mp h
    simpa using this
  · intro h
    apply (insertDesc_perm key x l).mem_iff.mpr
    simpa using h

theorem insertDesc_sorted {α : Type} {key : α → ℚ} {x : α} {l : List α}
    (hl : l.Pairwise (fun a b => key b ≤ key a)) :
    (insertDesc key x l).Pairwise (fun a b => key b ≤ key a) := by
  induction l with
  | nil => simp [insertDesc]
  | cons y ys ih =>
    rw [List.pairwise_cons] at hl
    simp only [insertDesc]
    split
    · rename_i hxy
      refine List.pairwise_cons.mpr ⟨?_, ih hl.2⟩
      intro z hz
      rcases mem_insertDesc.mp hz with h | h
      · exact h ▸ le_of_lt hxy
      · exact hl.1 z h
    · rename_i hxy
      push_neg at hxy
      refine List.pairwise_cons.mpr ⟨?_, List.pairwise_cons.mpr ⟨hl.1, hl.2⟩⟩
      intro z hz
      rcases List.mem_cons.mp hz with h | h
      · exact h ▸ hxy
      · exact le_trans (hl.1 z h) hxy

/-- Every `sortByDesc` output is sorted by descending key. -/
theorem sortByDesc_sorted {α : Type} (key : α → ℚ) (l : List α) :
    (sortByDesc key l).Pairwise (fun a b => key b ≤ key a) := by
  induction l with
  | nil => simp [sortByDesc]
  | cons x xs ih => exact insertDesc_sorted ih

/-- The stability relation: `a` may come before `b` iff `a` has a strictly
greater key, or keys are equal and `a` occurred earlier (smaller index). -/
def StRel {α : Type} (key : α → ℚ) (idx : α → ℕ) (a b : α) : Prop :=
  key b < key a ∨ (key a = key b ∧ idx a < idx b)

theorem insertDesc_stRel {α : Type} {key : α → ℚ} {idx : α → ℕ} {x : α} {l : List α}
    (hl : l.Pairwise (StRel key idx)) (hx : ∀ y ∈ l, idx x < idx y) :
    (insertDesc key x l).Pairwise (StRel key idx) := by
  induction l with
  | nil => simp [insertDesc]
  | cons y ys ih =>
    rw [List.pairwise_cons] at hl
    simp only [insertDesc]
    split
    · rename_i hxy
      refine List.pairwise_cons.mpr ⟨?_, ih hl.2 (fun z hz => hx z (List.mem_cons_of_mem y hz))⟩
      intro z hz
      rcases mem_insertDesc.mp hz with h | h
      · exact h ▸ Or.inl hxy
      · exact hl.1 z h
    · rename_i hxy
      push_neg at hxy
      refine List.pairwise_cons.mpr ⟨?_, List.pairwise_cons.mpr ⟨hl.1, hl.2⟩⟩
      intro z hz
      rcases List.mem_cons.mp hz with h | h
      · subst h
        rcases lt_or_eq_of_le hxy with h1 | h1
        · exact Or.inl h1
        · exact Or.inr ⟨h1.symm, hx z (List.mem_cons_self _ _)⟩
      · rcases hl.1 z h with h1 | h1
        · exact Or.inl (lt_of_lt_of_le h1 hxy)
        · rcases lt_or_eq_of_le hxy with h2 | h2
          · exact Or.inl (h1.1 ▸ h2)
          · exact Or.inr ⟨h2.symm.trans h1.1, lt_trans (hx y (List.mem_cons_self _ _)) h1.2⟩

/-- Stability of `sortByDesc`: if the input is listed in strictly increasing
index order, then in the output any element preceding another either has a
strictly greater key, or an equal key and a smaller index. -/
theorem sortByDesc_stRel {α : Type} {key : α → ℚ} {idx : α → ℕ} {l : List α}
    (hl : l.Pairwise (fun a b => idx a < idx b)) :
    (sortByDesc key l).Pairwise (StRel key idx) := by
  induction l with
  | nil => simp [sortByDesc]
  | cons x xs ih =>
    rw [List.pairwise_cons] at hl
    refine insertDesc_stRel (ih hl.2) ?_
    intro y hy
    exact hl.1 y ((sortByDesc_perm key xs).mem_iff.mp hy)

/-!
## Hit records (`rag_bridge.py`)

Python hits are string-keyed dicts; keys that may be absent are modelled as
`Option` fields.  Payload/metadata dict fields carry no information used by
any modelled computation and are omitted.
-/

/-- One search hit, as the dicts built in `rag_bridge.py`. -/
structure Hit where
  id : String := ""
  score : ℚ := 0
  source : String := ""
  content : String := ""
  semantic_rank : Option ℕ := none
  lexical_rank : Option ℕ := none
  external_rank : Option ℕ := none
  rrf_score : Option ℚ := none
  rank_sources : List (String × ℕ × ℚ) := []
  final_rank : Option ℕ := none
  final_external_rank : Option ℕ := none
  fusion_source : Option String := none
  fusion_score : Option ℚ := none
  priority : Option ℚ := none
  text_overlap : Option ℚ := none
deriving DecidableEq, Repr

/-- A caller-supplied ephemeral document (`external_docs` entries are dicts
read with `.get`, so every field may be absent). -/
structure ExternalDoc where
  src_id : Option String := none
  text : Option String := none
  priority : Option ℚ := none
deriving DecidableEq, Repr

/-- `RagBridge.get_query_embedding`: returns the embedding service's vector;
on any embedding-service failure it catches the exception and returns a
random unit vector instead (`np.random.rand(768)` renormalized).  The
parameter `fb` models that normalized random draw (the RNG made explicit). -/
def get_query_embedding (embedSvc : String → Except Unit Vec) (fb : Vec)
    (query : String) : Vec :=
  match embedSvc query with
  | Except.ok v => v
  | Except.error _ => fb

/-- `RagBridge.semantic_search`: queries the vector index (modelled by
`qdrantSvc`, which receives tenant, vector and limit and yields `(id, score)`
pairs) and converts results, assigning `semantic_rank = i + 1`; any failure
is caught and yields `[]`. -/
def semantic_search (qdrantSvc : String → Vec → ℕ → Except Unit (List (String × ℚ)))
    (tenant_id : String) (query_vector : Vec) (k : ℕ) : List Hit :=
  match qdrantSvc tenant_id query_vector k with
  | Except.error _ => []
  | Except.ok results =>
    results.enum.map (fun p =>
      { id := p.2.1, score := p.2.2, semantic_rank := some (p.1 + 1),
        source := "semantic" })

/-- Python `str.lower()` (the embedding lowers ASCII letters; every keyword
in the deploy-time tables is already lowercase). -/
def strLower (s : String) : String := String.mk (s.data.map Char.toLower)

/-- Helper for `pySplit`: scan the characters, accumulating the current
word (reversed) and emitting it at whitespace boundaries. -/
def wordsAux : List Char → List Char → List (List Char)
  | [], cur => if cur.isEmpty then [] else [cur.reverse]
  | c :: rest, cur =>
    if c.isWhitespace then
      if cur.isEmpty then wordsAux rest [] else cur.reverse :: wordsAux rest []
    else wordsAux rest (c :: cur)

/-- Python `str.split()` with no argument: split on whitespace runs,
dropping empty pieces. -/
def pySplit (s : String) : List String :=
  (wordsAux s.data []).map String.mk

/-- Python slicing `s[:n]` (by code points). -/
def pyTake (s : String) (n : ℕ) : String := String.mk (s.data.take n)

/-- `RagBridge.lexical_search`: the source simulates a lexical index,
deterministically producing `min(k, 15)` documents `doc_{tenant}_{i}` with
score `max(0.1, 1.0 - i*0.1)` and `lexical_rank = i + 1`. -/
def lexical_search (query : String) (tenant_id : String) (k : ℕ) : List Hit :=
  let keywords := pySplit (strLower query)
  (List.range (min k 15)).map (fun (i : ℕ) =>
    { id := "doc_" ++ tenant_id ++ "_" ++ toString i,
      score := max (1/10) (1 - (i : ℚ) * (1/10)),
      lexical_rank := some (i + 1),
      content := "Documento " ++ toString (i + 1) ++ " com palavras-chave: "
        ++ String.intercalate " " (keywords.take 2),
      source := "lexical" })

/-- One RRF contribution `1 / (k + rank)`. -/
def rrfTerm (k : ℚ) (rank : ℕ) : ℚ := 1 / (k + (rank : ℚ))

/-- Add one RRF contribution to an existing `all_docs` entry. -/
def bumpRRF (k : ℚ) (src : String) (rank : ℕ) (d : Hit) : Hit :=
  { d with
    rrf_score := some (d.rrf_score.getD 0 + rrfTerm k rank)
    rank_sources := d.rank_sources ++ [(src, rank, rrfTerm k rank)] }

/-- Initialize a new `all_docs` entry (`result.copy()` with `rrf_score = 0`
and no contributions, then one contribution added). -/
def freshRRF (k : ℚ) (src : String) (rank : ℕ) (result : Hit) : Hit :=
  { result with
    rrf_score := some (0 + rrfTerm k rank)
    rank_sources := [(src, rank, rrfTerm k rank)] }

/-- One step of the `all_docs` accumulation in
`RagBridge.reciprocal_rank_fusion`: if the document id is already present,
add the source's RRF term to its `rrf_score` and append the contribution;
otherwise append a copy of the hit initialized with this single term.
Dicts preserve insertion order, so `all_docs` is an ordered list. -/
def upsertRRF (k : ℚ) (src : String) (getRank : Hit → ℕ) (acc : List Hit)
    (result : Hit) : List Hit :=
  let rank := getRank result
  if acc.any (fun d => d.id = result.id) then
    acc.map (fun d => if d.id = result.id then bumpRRF k src rank d else d)
  else acc ++ [freshRRF k src rank result]

/-- The `all_docs` accumulation of `RagBridge.reciprocal_rank_fusion`:
RRF scores over the semantic then the lexical list (ranks read with
default 999 as in `result.get("semantic_rank", 999)`), in insertion
order. -/
def rrfAccum (semantic_results lexical_results : List Hit) (k : ℚ) : List Hit :=
  let acc := semantic_results.foldl
    (upsertRRF k "semantic" (fun h => h.semantic_rank.getD 999)) []
  lexical_results.foldl
    (upsertRRF k "lexical" (fun h => h.lexical_rank.getD 999)) acc

/-- `result["final_rank"] = i + 1` over an enumerated list. -/
def addFinalRank (p : ℕ × Hit) : Hit := { p.2 with final_rank := some (p.1 + 1) }

/-- `RagBridge.reciprocal_rank_fusion`: sort the accumulated documents by
`rrf_score` descending (Python's stable sort) and assign
`final_rank = i + 1`. -/
def reciprocal_rank_fusion (semantic_results lexical_results : List Hit)
    (k : ℚ) : List Hit :=
  let fused := sortByDesc (fun d : Hit => d.rrf_score.getD 0)
    (rrfAccum semantic_results lexical_results k)
  fused.enum.map addFinalRank

/-- The sort key of `RagBridge.fuse_internal_and_external`: the RRF score if
positive, else the plain score, with a 20% boost for external candidates. -/
def get_sort_key (result : Hit) : ℚ :=
  let base_score := result.score
  let rrf := result.rrf_score.getD 0
  let effective_score := if rrf > 0 then rrf else base_score
  if result.fusion_source = some "external" then effective_score * (6/5)
  else effective_score

/-- `result["final_rank"] = i + 1; result["fusion_score"] = get_sort_key(result)`
over an enumerated list. -/
def addFuseRank (p : ℕ × Hit) : Hit :=
  { p.2 with
    final_rank := some (p.1 + 1)
    fusion_score := some (get_sort_key p.2) }

/-- `result["fusion_source"] = "internal"`. -/
def tagInternal (r : Hit) : Hit := { r with fusion_source := some "internal" }

/-- `result["fusion_source"] = "external"`. -/
def tagExternal (r : Hit) : Hit := { r with fusion_source := some "external" }

/-- The `combined_results` list of `fuse_internal_and_external`: all
internal candidates (tagged) followed by all external candidates (tagged),
in their original orders. -/
def fuseCombined (internal_results external_results : List Hit) : List Hit :=
  internal_results.map tagInternal ++ external_results.map tagExternal

/-- `RagBridge.fuse_internal_and_external`: tag each candidate with its
origin, concatenate internal-then-external, stable-sort descending by
`get_sort_key`, and assign `final_rank = i + 1` plus the `fusion_score`. -/
def fuse_internal_and_external (internal_results external_results : List Hit) :
    List Hit :=
  let sorted := sortByDesc get_sort_key (fuseCombined internal_results external_results)
  sorted.enum.map addFuseRank

/-- The deduplicated lowercase whitespace tokens of a string, modelling
`set(s.lower().split())` (first occurrences kept; only membership and
cardinality of the set are ever used). -/
def pyTokenSet (s : String) : List String := (pySplit (strLower s)).dedup

/-- The lexical overlap `len(query_words & doc_words) / len(query_words)`
of `process_external_docs` (`0` when the query has no tokens). -/
def pyOverlap (query text : String) : ℚ :=
  let query_words := pyTokenSet query
  let doc_words := pyTokenSet text
  if query_words ≠ [] then
    ((query_words.filter (fun w => w ∈ doc_words)).length : ℚ)
      / (query_words.length : ℚ)
  else 0

/-- The hit `RagBridge.process_external_docs` builds for the document at
0-based position `p.1` (the body of its main loop, before sorting): score
the document by priority minus a position penalty (floored at 0.1), blend
in semantic similarity when a query vector is available and the text is
nonempty (the per-document `try` catches the dimension-mismatch error of
`np.dot`, modelled by the length test; `get_query_embedding` itself never
fails), then blend in lexical overlap.  There is no clamping of the final
score. -/
def externalHit (embedSvc : String → Except Unit Vec) (fb : Vec)
    (query : String) (query_vector : Option Vec) (p : ℕ × ExternalDoc) : Hit :=
    let i := p.1
    let doc := p.2
    let src_id := doc.src_id.getD ("external_doc_" ++ toString i)
    let text := doc.text.getD ""
    let priority := doc.priority.getD (9/10)
    let base_score := priority
    let position_penalty := (i : ℚ) * (1/100)
    let score0 := max (1/10) (base_score - position_penalty)
    let score1 :=
      match query_vector with
      | some qv =>
        if text ≠ "" then
          let doc_embedding := get_query_embedding embedSvc fb (pyTake text 1000)
          if doc_embedding.length = qv.length then
            score0 * (7/10) + dotQ qv doc_embedding * (3/10)
          else score0
        else score0
      | none => score0
    let text_overlap : ℚ := pyOverlap query text
    let final_score := score1 * (8/10) + text_overlap * (2/10)
    { id := src_id, score := final_score, external_rank := some (i + 1),
      source := "external", priority := some priority,
      text_overlap := some text_overlap, content := text }

/-- `hit["final_external_rank"] = i + 1` over an enumerated list. -/
def addExternalRank (p : ℕ × Hit) : Hit :=
  { p.2 with final_external_rank := some (p.1 + 1) }

/-- `RagBridge.process_external_docs`: build the per-document hits, sort
by score descending, and assign `final_external_rank`. -/
def process_external_docs (embedSvc : String → Except Unit Vec) (fb : Vec)
    (external_docs : List ExternalDoc) (query : String)
    (query_vector : Option Vec) : List Hit :=
  if external_docs.isEmpty then [] else
  let ephemeral_hits : List Hit :=
    external_docs.enum.map (externalHit embedSvc fb query query_vector)
  let sorted := sortByDesc (fun h : Hit => h.score) ephemeral_hits
  sorted.enum.map addExternalRank

/-!
## Federated search orchestrator (`RagBridge.federated_search`)

The collaborating services are injected explicitly: the embedding service
and its random fallback draw, the vector index, and the personalizer
(`personalize_query_vector`, whose concrete implementation is embedded and
verified separately below; at this level the orchestrator treats it as an
opaque vector transform, so the theorems hold for every personalizer).
-/

/-- The injected collaborators of `RagBridge`. -/
structure SearchServices where
  embedSvc : String → Except Unit Vec
  fb : Vec
  qdrantSvc : String → Vec → ℕ → Except Unit (List (String × ℚ))
  persSvc : Vec → ℚ → Vec

/-- Python's `personalization_alpha or self.personalization_alpha`: an
explicit `0.0` is falsy and also falls back to the default `0.25`. -/
def pyAlpha (personalization_alpha : Option ℚ) : ℚ :=
  match personalization_alpha with
  | some a => if a = 0 then 1/4 else a
  | none => 1/4

/-- The body of `RagBridge.federated_search` (everything inside the outer
`try`), with `rrf_k = 60`.  After personalizing, the source computes
`np.dot(query_vector, personalized_vector)` for logging (line 383), which
raises on a dimension mismatch and is the one failure in the body that
reaches the outer `except`; it is modelled by the length test.  In the
source the internal branch is guarded by `use_internal_rag and
query_vector is not None`; `query_vector` is assigned exactly when
`use_internal_rag` holds and `get_query_embedding` is total, so the two
conditions coincide and the guard is the `match` on `query_vector`.
The per-hit `search_metadata` dict is diagnostic only and not modelled. -/
def resolve_query_vector (svcs : SearchServices) (query : String)
    (personalization_alpha : Option ℚ) (enable_personalization : Bool)
    (use_internal_rag : Bool) : Except Unit (Option Vec) :=
  if use_internal_rag then
    let qv := get_query_embedding svcs.embedSvc svcs.fb query
    if enable_personalization then
      let alpha := pyAlpha personalization_alpha
      let personalized_vector := svcs.persSvc qv alpha
      if personalized_vector.length = qv.length then
        Except.ok (some personalized_vector)
      else Except.error ()
    else Except.ok (some qv)
  else Except.ok none

/-- Steps 1-3 of the body after the query vector is available: fan out to
the internal sources and the ephemeral scorer, then fuse. -/
def fused_results (svcs : SearchServices) (query : String)
    (tenant_id : String) (k_total : ℕ) (external_docs : List ExternalDoc)
    (query_vector : Option Vec) : List Hit :=
  let internal : Option (List Hit × List Hit) :=
    match query_vector with
    | some qv =>
      let k_search := min (k_total * 2) 50
      some (semantic_search svcs.qdrantSvc tenant_id qv k_search,
            lexical_search query tenant_id k_search)
    | none => none
  let ephemeral : Option (List Hit) :=
    if external_docs.isEmpty then none
    else some (process_external_docs svcs.embedSvc svcs.fb external_docs
                 query query_vector)
  match internal, ephemeral with
  | none, none => []
  | none, some eph => eph
  | some (sem, lex), none =>
    if sem.isEmpty = false ∨ lex.isEmpty = false then
      reciprocal_rank_fusion sem lex 60
    else []
  | some (sem, lex), some eph =>
    let internal_fused :=
      if sem.isEmpty = false ∨ lex.isEmpty = false then
        reciprocal_rank_fusion sem lex 60
      else []
    if eph.isEmpty = false then
      fuse_internal_and_external internal_fused eph
    else internal_fused

def federated_search_body (svcs : SearchServices) (query : String)
    (tenant_id : String) (k_total : ℕ) (personalization_alpha : Option ℚ)
    (enable_personalization : Bool) (external_docs : List ExternalDoc)
    (use_internal_rag : Bool) : Except Unit (List Hit) :=
  if use_internal_rag = false ∧ external_docs.isEmpty then Except.ok []
  else
    match resolve_query_vector svcs query personalization_alpha
        enable_personalization use_internal_rag with
    | Except.error e => Except.error e
    | Except.ok query_vector =>
      Except.ok ((fused_results svcs query tenant_id k_total external_docs
        query_vector).take k_total)

/-- `RagBridge.federated_search`: the body runs under a `try` whose
`except` clause catches every exception and returns the empty list, so the
operation never surfaces an error to its caller. -/
def federated_search (svcs : SearchServices) (query : String)
    (tenant_id : String) (k_total : ℕ := 20)
    (personalization_alpha : Option ℚ := none)
    (enable_personalization : Bool := true)
    (external_docs : List ExternalDoc := [])
    (use_internal_rag : Bool := true) : Except Unit (List Hit) :=
  match federated_search_body svcs query tenant_id k_total
      personalization_alpha enable_personalization external_docs
      use_internal_rag with
  | Except.ok r => Except.ok r
  | Except.error _ => Except.ok []

/-- The hit list of a federated-search result (the call never errors). -/
def resultHits (r : Except Unit (List Hit)) : List Hit :=
  match r with
  | Except.ok l => l
  | Except.error _ => []

/-!
## Personalization (`app/core/personalization.py`)
-/

/-- Python substring test `pat in hay` on strings. -/
def strContains (hay pat : String) : Bool :=
  decide (pat.data <:+: hay.data)

/-- The deploy-time keyword table of `CentroidPersonalizer.infer_query_tag`,
in declaration (= dict insertion) order. -/
def tag_keywords : List (String × List String) :=
  [("contratos_imobiliarios",
     ["imóvel", "casa", "apartamento", "aluguel", "compra", "venda", "propriedade"]),
   ("litigios_tributarios",
     ["imposto", "tributo", "fisco", "receita", "icms", "ipi", "irpf"]),
   ("direito_trabalhista",
     ["trabalho", "empregado", "salário", "férias", "rescisão", "clt"]),
   ("direito_civil",
     ["civil", "família", "divórcio", "sucessão", "herança", "responsabilidade"]),
   ("direito_penal",
     ["crime", "penal", "processo", "denúncia", "prisão", "sentença"]),
   ("direito_empresarial",
     ["empresa", "societário", "contrato", "negócio", "comercial", "cnpj"])]

/-- One step of Python `max(d, key=d.get)`: a later entry replaces the
current maximum only on a strictly greater value. -/
def maxStep (acc : Option (String × ℕ)) (p : String × ℕ) : Option (String × ℕ) :=
  match acc with
  | none => some p
  | some q => if p.2 > q.2 then some p else some q

/-- Python `max(d, key=d.get)` over an insertion-ordered dict: the first
key attaining the maximal value. -/
def firstMax (l : List (String × ℕ)) : Option (String × ℕ) :=
  l.foldl maxStep none

/-- The score `infer_query_tag` computes for one tag: the number of its
keywords occurring as a substring of the lowercased query
(`sum(1 for keyword in keywords if keyword in query_lower)`). -/
def tagScore (query_lower : String) (keywords : List String) : ℕ :=
  (keywords.filter (fun kw => strContains query_lower kw)).length

/-- `CentroidPersonalizer.infer_query_tag`: lowercase the query, score each
tag by substring-contained keywords, keep only positive scores (in table
order), return the first maximal tag, or the fallback tag when every score
is zero. -/
def infer_query_tag (query : String) : String :=
  let query_lower := strLower query
  let tag_scores :=
    (tag_keywords.map (fun p => (p.1, tagScore query_lower p.2))).filter
      (fun p => p.2 > 0)
  match firstMax tag_scores with
  | some p => p.1
  | none => "direito_civil"

/-- `CentroidPersonalizer.apply_personalization`.  The centroid fetched
from the store is the `centroid` parameter (`none` models both a missing
key and a store failure, which `get_centroid` maps to `None`).  The result
is a pair `(v, s)` denoting the vector `v / sqrt s`: when the adjusted
vector has positive norm the code divides by that norm, so the result is
`(adjusted, normSq adjusted)`; otherwise the division is skipped and the
unnormalized vector `(adjusted, 1)` is returned.  When no centroid is
available the input is returned unchanged, `(query_vector, 1)`. -/
def apply_personalization (query_vector : Vec) (centroid : Option Vec)
    (alpha : ℚ) : Vec × ℚ :=
  match centroid with
  | none => (query_vector, 1)
  | some c =>
    let adjusted_vector := vadd query_vector (smul alpha c)
    if 0 < normSq adjusted_vector then (adjusted_vector, normSq adjusted_vector)
    else (adjusted_vector, 1)

/-- Squared norm of a scaled vector `(v, s)` denoting `v / sqrt s`
(defined when `s > 0`). -/
def scaledNormSq (p : Vec × ℚ) : ℚ := normSq p.1 / p.2

/-!
## Centroid builder (`scripts/calculate_centroids.py`)
-/

/-- `CentroidCalculator.calculate_centroid`: `None` on an empty list; else
the mean of the vectors, divided by its norm when that norm is positive
(no epsilon test, no abort: a zero mean is returned unnormalized).  The
result is a scaled vector `(v, s)` denoting `v / sqrt s` as above. -/
def calculate_centroid (vectors : List Vec) : Option (Vec × ℚ) :=
  if vectors.isEmpty then none
  else
    let centroid := meanVec vectors
    if 0 < normSq centroid then some (centroid, normSq centroid)
    else some (centroid, 1)

/-- The value `CentroidCalculator.calculate_and_store_centroids` writes to
the store for one tag, given that tag's vectors: nothing when the vector
list is empty or the centroid computation returns `None`; otherwise
`store_centroid` unconditionally persists the computed centroid. -/
def stored_centroid_for_tag (vectors : List Vec) : Option (Vec × ℚ) :=
  if vectors.isEmpty then none
  else
    match calculate_centroid vectors with
    | none => none
    | some c => some c

/-!
## Concrete service instantiations used by counterexamples and witnesses
-/

/-- Services whose embedder succeeds and whose vector index is empty. -/
def svcOkEmpty : SearchServices :=
  { embedSvc := fun _ => Except.ok [1, 0], fb := [],
    qdrantSvc := fun _ _ _ => Except.ok [], persSvc := fun v _ => v }

/-- Services whose embedder and vector index always fail. -/
def svcAllFail : SearchServices :=
  { embedSvc := fun _ => Except.error (), fb := [1, 0],
    qdrantSvc := fun _ _ _ => Except.error (), persSvc := fun v _ => v }

/-- `true` iff a federated-search result is a success value. -/
def isOkB (r : Except Unit (List Hit)) : Bool :=
  match r with
  | Except.ok _ => true
  | Except.error _ => false

/-- The outer `try/except` of `federated_search` converts every body
outcome into a success value. -/
theorem federated_search_always_ok (svcs : SearchServices)
    (query tenant_id : String) (k_total : ℕ) (pa : Option ℚ) (en : Bool)
    (ext : List ExternalDoc) (ui : Bool) :
    isOkB (federated_search svcs query tenant_id k_total pa en ext ui) = true := by
  unfold federated_search
  cases federated_search_body svcs query tenant_id k_total pa en ext ui with
  | ok r => rfl
  | error e => rfl

/-- C6 counterexample: with `use_internal_rag = false` and no external
documents, `federated_search` returns the successful empty result
`Except.ok []` — it does not return an `InvalidArgument` error (no error
value exists on this path; the source logs a warning and returns `[]`). -/
theorem C6_counterexample :
    federated_search svcOkEmpty "q" "t1" 20 none true [] false =
      Except.ok [] := by
  rfl

/-- C6 (amended): for every request in which `use_internal_rag` is false
and the external document list is empty, `federated_search` returns the
successful empty result list `Except.ok []` (a warning is logged; no
`InvalidArgument` error is raised). -/
theorem C6_theorem (svcs : SearchServices) (query tenant_id : String)
    (k_total : ℕ) (pa : Option ℚ) (en : Bool) (ext : List ExternalDoc)
    (ui : Bool) (hui : ui = false) (hext : ext = []) :
    federated_search svcs query tenant_id k_total pa en ext ui =
      Except.ok [] := by
  subst hui hext
  rfl

/-- Witness for C6: the amended theorem applied at a concrete input. -/
theorem C6_witness :
    federated_search svcAllFail "query" "tenant" 7 (some (1/2)) false [] false =
      Except.ok [] :=
  C6_theorem svcAllFail "query" "tenant" 7 (some (1/2)) false [] false rfl rfl

/-- C7 counterexample: the embedding service always fails, yet
`federated_search` does not surface an error — it proceeds with the
substituted random fallback vector and returns a successful result with
two hits (from the simulated lexical source, fused and truncated). -/
theorem C7_counterexample :
    isOkB (federated_search svcAllFail "q" "t1" 2 none true [] true) = true ∧
    (resultHits (federated_search svcAllFail "q" "t1" 2 none true [] true)).length = 2 := by
  constructor
  · rfl
  · norm_num [federated_search, federated_search_body, resolve_query_vector,
      fused_results, pyAlpha, resultHits, svcAllFail, get_query_embedding,
      semantic_search, lexical_search, pySplit, strLower, wordsAux,
      reciprocal_rank_fusion, rrfAccum, addFinalRank, upsertRRF, bumpRRF, freshRRF, rrfTerm,
      sortByDesc, insertDesc, List.foldl, List.enum]

/-- C7 (amended): when the query-embedding operation fails,
`get_query_embedding` catches the failure and returns the normalized
random fallback vector instead, and `federated_search` proceeds with that
substitute: it returns a successful result, never an `Unavailable` error. -/
theorem C7_theorem (svcs : SearchServices) (query tenant_id : String)
    (k_total : ℕ) (pa : Option ℚ) (en : Bool) (ext : List ExternalDoc)
    (ui : Bool) (hfail : svcs.embedSvc query = Except.error ()) :
    get_query_embedding svcs.embedSvc svcs.fb query = svcs.fb ∧
    isOkB (federated_search svcs query tenant_id k_total pa en ext ui) = true := by
  constructor
  · simp [get_query_embedding, hfail]
  · exact federated_search_always_ok svcs query tenant_id k_total pa en ext ui

/-- Witness for C7: the amended theorem applied at a concrete input. -/
theorem C7_witness :
    get_query_embedding svcAllFail.embedSvc svcAllFail.fb "q" = svcAllFail.fb ∧
    isOkB (federated_search svcAllFail "q" "t1" 5 none true [] true) = true :=
  C7_theorem svcAllFail "q" "t1" 5 none true [] true rfl

/-- Adding `0 · c` elementwise leaves a vector unchanged (same dimensions). -/
theorem vadd_smul_zero : ∀ (q c : Vec), c.length = q.length →
    vadd q (smul 0 c) = q := by
  intro q
  induction q with
  | nil => intro c _; simp [vadd]
  | cons a q ih =>
    intro c hc
    cases c with
    | nil => simp at hc
    | cons b c =>
      have h2 := ih c (by simpa using hc)
      simp only [vadd, smul] at h2 ⊢
      simp only [List.map_cons, List.zipWith_cons_cons, zero_mul, add_zero,
        List.cons.injEq, true_and] at h2 ⊢
      exact h2

/-- C5 counterexample: for the unit-norm query `[1, 0]`, the stored centroid
`[-1, 0]` and `alpha = 1` (within `[0, 1]`), the adjusted vector is zero, the
division by the norm is skipped, and the zero vector is returned — its
squared norm is `0`, not `1`, so the output is not unit-norm. -/
theorem C5_counterexample :
    normSq [(1 : ℚ), 0] = 1 ∧ (0 : ℚ) ≤ 1 ∧ (1 : ℚ) ≤ 1 ∧
    apply_personalization [1, 0] (some [-1, 0]) 1 = ([0, 0], 1) ∧
    scaledNormSq (apply_personalization [1, 0] (some [-1, 0]) 1) ≠ 1 := by
  norm_num [apply_personalization, vadd, smul, normSq, dotQ, scaledNormSq]

/-- C5 (amended): for every unit-norm query vector `q`, centroid `c` of the
same dimension and `alpha ∈ [0, 1]`: with no centroid available the input is
returned unchanged; when the adjusted vector `q + alpha·c` has positive
norm the output is unit-norm; and with `alpha = 0` the returned vector is
exactly the input `q`.  (When `q + alpha·c` is the zero vector the code
skips the normalization and returns the zero vector, which is why the
positive-norm proviso is required — see the counterexample.) -/
theorem C5_theorem (q c : Vec) (alpha : ℚ) (hq : normSq q = 1)
    (h0 : 0 ≤ alpha) (h1 : alpha ≤ 1) (hlen : c.length = q.length) :
    apply_personalization q none alpha = (q, 1) ∧
    (0 < normSq (vadd q (smul alpha c)) →
      scaledNormSq (apply_personalization q (some c) alpha) = 1) ∧
    (alpha = 0 → apply_personalization q (some c) alpha = (q, 1)) := by
  refine ⟨rfl, ?_, ?_⟩
  · intro hpos
    simp only [apply_personalization, if_pos hpos, scaledNormSq]
    exact div_self (ne_of_gt hpos)
  · intro ha
    subst ha
    simp only [apply_personalization, vadd_smul_zero q c hlen, hq]
    norm_num

/-- Witness for C5: the amended theorem applied at `q = [1, 0]`,
`c = [0, 1]`, `alpha = 1/2`. -/
theorem C5_witness :
    scaledNormSq (apply_personalization [1, 0] (some [0, 1]) (1/2)) = 1 := by
  have h := C5_theorem [1, 0] [0, 1] (1/2) (by norm_num [normSq, dotQ])
    (by norm_num) (by norm_num) rfl
  exact h.2.1 (by norm_num [normSq, dotQ, vadd, smul])

/-- C8 counterexample: for the two opposite unit vectors the mean is the
zero vector; `calculate_centroid` skips the normalization (there is no
epsilon test and no `Degenerate` abort), returns the zero vector, and the
store pipeline persists it — a write occurs and the stored vector is not
unit-norm. -/
theorem C8_counterexample :
    stored_centroid_for_tag [[1, 0], [-1, 0]] = some ([0, 0], 1) ∧
    scaledNormSq ([0, 0], 1) ≠ 1 := by
  norm_num [stored_centroid_for_tag, calculate_centroid, meanVec, sumVecs,
    vadd, smul, normSq, dotQ, scaledNormSq]

/-- C8 (amended): for every nonempty vector list a centroid is computed and
persisted: it is the mean of the vectors normalized by its L2 norm — hence
unit-norm — whenever that norm is positive; a zero-norm mean is persisted
unnormalized.  Nothing is written only when the tag has no vectors. -/
theorem C8_theorem (vectors : List Vec) (hne : vectors ≠ []) :
    (∃ c, stored_centroid_for_tag vectors = some c ∧ c.1 = meanVec vectors ∧
      (0 < normSq (meanVec vectors) →
        c.2 = normSq (meanVec vectors) ∧ scaledNormSq c = 1) ∧
      (¬ 0 < normSq (meanVec vectors) → c = (meanVec vectors, 1))) ∧
    stored_centroid_for_tag [] = none := by
  constructor
  · have hemp : vectors.isEmpty = false := by
      cases vectors with
      | nil => exact absurd rfl hne
      | cons v vs => rfl
    by_cases hpos : 0 < normSq (meanVec vectors)
    · refine ⟨(meanVec vectors, normSq (meanVec vectors)), ?_, rfl, ?_, ?_⟩
      · simp [stored_centroid_for_tag, calculate_centroid, hemp, hpos]
      · intro _
        exact ⟨rfl, div_self (ne_of_gt hpos)⟩
      · intro h
        exact absurd hpos h
    · refine ⟨(meanVec vectors, 1), ?_, rfl, ?_, ?_⟩
      · simp [stored_centroid_for_tag, calculate_centroid, hemp, hpos]
      · intro h
        exact absurd h hpos
      · intro _
        rfl
  · rfl

/-- Witness for C8: the amended theorem applied to the single unit vector
`[1, 0]`; the persisted centroid is unit-norm. -/
theorem C8_witness : ∃ c, stored_centroid_for_tag [[1, 0]] = some c ∧
    scaledNormSq c = 1 := by
  obtain ⟨⟨c, hc, hm, hpos, hz⟩, -⟩ := C8_theorem [[1, 0]] (by simp)
  refine ⟨c, hc, ?_⟩
  exact (hpos (by norm_num [meanVec, sumVecs, smul, normSq, dotQ])).2

theorem foldl_maxStep_isSome : ∀ (l : List (String × ℕ)) (q : String × ℕ),
    (l.foldl maxStep (some q)).isSome = true := by
  intro l
  induction l with
  | nil => intro q; rfl
  | cons x xs ih =>
    intro q
    by_cases hx : x.2 > q.2
    · simpa [List.foldl, maxStep, hx] using ih x
    · simpa [List.foldl, maxStep, hx] using ih q

theorem foldl_maxStep_char : ∀ (l : List (String × ℕ)) (q r : String × ℕ),
    l.foldl maxStep (some q) = some r →
    (r = q ∧ ∀ x ∈ l, x.2 ≤ q.2) ∨
    (∃ l₁ l₂, l = l₁ ++ r :: l₂ ∧ q.2 < r.2 ∧
      (∀ x ∈ l₁, x.2 < r.2) ∧ (∀ x ∈ l₂, x.2 ≤ r.2)) := by
  intro l
  induction l with
  | nil =>
    intro q r h
    simp only [List.foldl, Option.some.injEq] at h
    exact Or.inl ⟨h.symm, by simp⟩
  | cons x xs ih =>
    intro q r h
    simp only [List.foldl] at h
    by_cases hx : x.2 > q.2
    · rw [show maxStep (some q) x = some x from by simp [maxStep, hx]] at h
      rcases ih x r h with ⟨hrq, hall⟩ | ⟨l₁, l₂, heq, hlt, h₁, h₂⟩
      · subst hrq
        exact Or.inr ⟨[], xs, rfl, hx, by simp, hall⟩
      · refine Or.inr ⟨x :: l₁, l₂, by simp [heq], lt_trans hx hlt, ?_, h₂⟩
        intro y hy
        rcases List.mem_cons.mp hy with hy | hy
        · exact hy ▸ hlt
        · exact h₁ y hy
    · rw [show maxStep (some q) x = some q from by simp [maxStep, hx]] at h
      push_neg at hx
      rcases ih q r h with ⟨hrq, hall⟩ | ⟨l₁, l₂, heq, hlt, h₁, h₂⟩
      · refine Or.inl ⟨hrq, ?_⟩
        intro y hy
        rcases List.mem_cons.mp hy with hy | hy
        · exact hy ▸ hx
        · exact hall y hy
      · refine Or.inr ⟨x :: l₁, l₂, by simp [heq], hlt, ?_, h₂⟩
        intro y hy
        rcases List.mem_cons.mp hy with hy | hy
        · exact hy ▸ lt_of_le_of_lt hx hlt
        · exact h₁ y hy

/-- `firstMax` returns the first entry attaining the maximal value: all
earlier entries are strictly smaller, all later ones no greater. -/
theorem firstMax_char (l : List (String × ℕ)) (p : String × ℕ)
    (h : firstMax l = some p) :
    ∃ l₁ l₂, l = l₁ ++ p :: l₂ ∧ (∀ x ∈ l₁, x.2 < p.2) ∧
      (∀ x ∈ l₂, x.2 ≤ p.2) := by
  cases l with
  | nil => simp [firstMax, List.foldl] at h
  | cons x xs =>
    have h2 : xs.foldl maxStep (some x) = some p := by
      simpa [firstMax, List.foldl, maxStep] using h
    rcases foldl_maxStep_char xs x p h2 with ⟨hrq, hall⟩ | ⟨l₁, l₂, heq, _, h₁, h₂⟩
    · subst hrq
      exact ⟨[], xs, by simp, by simp, hall⟩
    · refine ⟨x :: l₁, l₂, by simp [heq], ?_, h₂⟩
      intro y hy
      rcases List.mem_cons.mp hy with hy | hy
      · exact hy ▸ by
          rename_i hlt _
          exact hlt
      · exact h₁ y hy

/-- Decomposing a `filter` image: a split of the filtered list lifts to a
split of the original list whose parts filter into the respective sides. -/
theorem filter_split {α : Type} (pr : α → Bool) : ∀ (l f₁ f₂ : List α) (p : α),
    l.filter pr = f₁ ++ p :: f₂ →
    ∃ l₁ l₂, l = l₁ ++ p :: l₂ ∧ (∀ x ∈ l₁, pr x = true → x ∈ f₁) ∧
      (∀ x ∈ l₂, pr x = true → x ∈ f₂) := by
  intro l
  induction l with
  | nil =>
    intro f₁ f₂ p h
    rw [List.filter_nil] at h
    exact absurd h.symm (List.append_ne_nil_of_right_ne_nil f₁ (by simp))
  | cons x xs ih =>
    intro f₁ f₂ p h
    by_cases hpx : pr x = true
    · rw [List.filter_cons_of_pos hpx] at h
      cases f₁ with
      | nil =>
        simp only [List.nil_append, List.cons.injEq] at h
        refine ⟨[], xs, by simp [h.1], by simp, ?_⟩
        intro y hy hpy
        rw [← h.2]
        exact List.mem_filter.mpr ⟨hy, hpy⟩
      | cons z f₁ =>
        simp only [List.cons_append, List.cons.injEq] at h
        obtain ⟨l₁, l₂, heq, m₁, m₂⟩ := ih f₁ f₂ p h.2
        refine ⟨x :: l₁, l₂, by simp [heq], ?_, m₂⟩
        intro y hy hpy
        rcases List.mem_cons.mp hy with hy | hy
        · subst hy
          exact h.1 ▸ List.mem_cons_self z f₁
        · exact List.mem_cons_of_mem z (m₁ y hy hpy)
    · rw [List.filter_cons_of_neg (by simpa using hpx)] at h
      obtain ⟨l₁, l₂, heq, m₁, m₂⟩ := ih f₁ f₂ p h
      refine ⟨x :: l₁, l₂, by simp [heq], ?_, m₂⟩
      intro y hy hpy
      rcases List.mem_cons.mp hy with hy | hy
      · exact absurd (hy ▸ hpy) hpx
      · exact m₁ y hy hpy

/-- The tag-inference algorithm exactly as the claim words it (for
comparison with the source's `infer_query_tag`): lowercase and tokenize the
query, count for each tag the occurrences of that tag's keywords among the
tokens, return the tag with the highest count (ties by declared order),
and the fallback tag when all counts are zero. -/
def infer_query_tag_token_spec (query : String) : String :=
  let toks := pySplit (strLower query)
  let scores := tag_keywords.map
    (fun p => (p.1, (p.2.map (fun kw => toks.count kw)).sum))
  match firstMax scores with
  | some p => if p.2 = 0 then "direito_civil" else p.1
  | none => "direito_civil"

/-- C9 counterexample: on the query `"sobrecasaco"` the source returns
`"contratos_imobiliarios"`, because the keyword `"casa"` is matched as a
SUBSTRING of the lowercased query; the claim's algorithm (keyword
occurrences among whitespace tokens) finds no keyword among the single
token `"sobrecasaco"` and returns the fallback `"direito_civil"`. -/
theorem C9_counterexample :
    infer_query_tag "sobrecasaco" = "contratos_imobiliarios" ∧
    infer_query_tag_token_spec "sobrecasaco" = "direito_civil" ∧
    ("contratos_imobiliarios" : String) ≠ "direito_civil" := by
  refine ⟨by decide, by decide, by decide⟩

/-- C9 (amended): `infer_query_tag` lowercases the query and scores each
tag by the number of its keywords occurring as substrings of the lowercased
query (each keyword counted at most once, no tokenization); it returns the
first tag attaining the maximal score in declared table order (so ties are
broken by the declared order), and the fallback `"direito_civil"` when
every score is zero.  It is a pure function, hence deterministic. -/
theorem C9_theorem (query : String) :
    ((∀ p ∈ tag_keywords, tagScore (strLower query) p.2 = 0) →
      infer_query_tag query = "direito_civil") ∧
    ((∃ p ∈ tag_keywords, 0 < tagScore (strLower query) p.2) →
      ∃ l₁ p l₂,
        tag_keywords.map (fun p => (p.1, tagScore (strLower query) p.2)) =
          l₁ ++ p :: l₂ ∧
        infer_query_tag query = p.1 ∧ 0 < p.2 ∧
        (∀ r ∈ l₁, r.2 < p.2) ∧ (∀ r ∈ l₂, r.2 ≤ p.2)) := by
  set ql := strLower query with hql
  set scores := tag_keywords.map (fun p => (p.1, tagScore ql p.2)) with hscores
  constructor
  · intro hz
    have hfil : scores.filter (fun p => p.2 > 0) = [] := by
      rw [List.filter_eq_nil_iff]
      intro a ha
      rw [hscores] at ha
      obtain ⟨t, ht, rfl⟩ := List.mem_map.mp ha
      simp [hz t ht]
    simp [infer_query_tag, ← hql, ← hscores, hfil, firstMax, List.foldl]
  · intro ⟨t, ht, hpos⟩
    have hmem : (t.1, tagScore ql t.2) ∈ scores.filter (fun p => p.2 > 0) := by
      rw [List.mem_filter]
      exact ⟨hscores ▸ List.mem_map.mpr ⟨t, ht, rfl⟩, by simpa using hpos⟩
    have hne : scores.filter (fun p => p.2 > 0) ≠ [] := by
      intro h
      rw [h] at hmem
      exact absurd hmem (List.not_mem_nil _)
    obtain ⟨p, hp⟩ : ∃ p, firstMax (scores.filter (fun p => p.2 > 0)) = some p := by
      cases hfm : firstMax (scores.filter (fun p => p.2 > 0)) with
      | some p => exact ⟨p, rfl⟩
      | none =>
        cases hl : scores.filter (fun p => p.2 > 0) with
        | nil => exact absurd hl hne
        | cons a as =>
          have := foldl_maxStep_isSome as a
          rw [hl] at hfm
          simp [firstMax, List.foldl, maxStep] at hfm
          rw [hfm] at this
          simp at this
    have hppos : 0 < p.2 := by
      have hpf := firstMax_char _ p hp
      obtain ⟨f₁, f₂, hfe, -, -⟩ := hpf
      have : p ∈ scores.filter (fun p => p.2 > 0) := by
        rw [hfe]
        exact List.mem_append_right f₁ (List.mem_cons_self p f₂)
      simpa using (List.mem_filter.mp this).2
    obtain ⟨f₁, f₂, hfe, hf₁, hf₂⟩ := firstMax_char _ p hp
    obtain ⟨l₁, l₂, hle, m₁, m₂⟩ := filter_split _ scores f₁ f₂ p hfe
    refine ⟨l₁, p, l₂, hle, ?_, hppos, ?_, ?_⟩
    · simp only [infer_query_tag, ← hql, ← hscores]
      rw [hp]
    · intro r hr
      by_cases hrp : r.2 > 0
      · exact hf₁ r (m₁ r hr (by simpa using hrp)) 
      · omega
    · intro r hr
      by_cases hrp : r.2 > 0
      · exact hf₂ r (m₂ r hr (by simpa using hrp))
      · omega

/-- Witness for C9: the amended theorem applied to the concrete query
`"xyz"`, on which every tag score is zero and the fallback is returned. -/
theorem C9_witness : infer_query_tag "xyz" = "direito_civil" := by
  have h := C9_theorem "xyz"
  exact h.1 (by decide)

/-- Every member of a list appears (at its index) in the enumerated,
per-index-mapped list. -/
theorem exists_mem_enum_map {α β : Type} (f : ℕ × α → β) {x : α} {l : List α}
    (hx : x ∈ l) : ∃ n, f (n, x) ∈ l.enum.map f := by
  obtain ⟨i, hi, hget⟩ := List.mem_iff_getElem.mp hx
  refine ⟨i, List.mem_map_of_mem f ?_⟩
  rw [List.mk_mem_enum_iff_getElem?]
  simp [List.getElem?_eq_getElem hi, hget]

/-- C4 counterexample: one external document with priority `0`, text `"x"`
and a doc embedding exactly opposite to the query vector.  The recorded
score is `0.8·(0.7·0.1 + 0.3·(−1)) = −23/125 < 0`: the source records
`0.8·s₁ + 0.2·o` with NO clamp, so the recorded score is not
`clamp(0.8·s₁ + 0.2·o, 0, 1)` (which would be `0`) and lies outside
`[0, 1]`. -/
theorem C4_counterexample :
    (process_external_docs (fun _ => Except.ok [-1, 0]) []
        [{ src_id := some "d", text := some "x", priority := some 0 }]
        "" (some [1, 0])).map (fun h => h.score) = [-23/125] ∧
    ¬ (0 ≤ (-23/125 : ℚ)) := by
  constructor
  · norm_num [process_external_docs, externalHit, addExternalRank,
      get_query_embedding, pyOverlap, pyTokenSet, pySplit, strLower, wordsAux,
      pyTake, dotQ, sortByDesc, insertDesc, List.enum, List.enumFrom]
    decide
  · norm_num

/-- C4 (amended): for every external document at 0-based position `i` with
`base = priority − 0.01·i`, the scorer computes
`s₁ = 0.7·max(base, 0.1) + 0.3·sim` when a query vector is available and
the text is nonempty (`sim` the dot product with the embedding of the
doc's first 1000 chars, when the dimensions agree) and
`s₁ = max(base, 0.1)` otherwise, computes the lexical overlap
`o = |Q ∩ D| / |Q|` over lowercased token sets with `o = 0` when `Q` is
empty, and records the final score `0.8·s₁ + 0.2·o` — with NO clamping, so
the recorded score may lie outside `[0, 1]`. -/
theorem C4_theorem (embedSvc : String → Except Unit Vec) (fb : Vec)
    (docs : List ExternalDoc) (query : String) (query_vector : Option Vec)
    (i : ℕ) (hi : i < docs.length) :
    ∃ h ∈ process_external_docs embedSvc fb docs query query_vector,
      h.id = docs[i].src_id.getD ("external_doc_" ++ toString i) ∧
      h.text_overlap = some (pyOverlap query (docs[i].text.getD "")) ∧
      ((query_vector = none ∨ docs[i].text.getD "" = "") →
        h.score = (8/10) *
            max ((docs[i].priority.getD (9/10)) - (i : ℚ) * (1/100)) (1/10)
          + (2/10) * pyOverlap query (docs[i].text.getD "")) ∧
      (∀ v, query_vector = some v → docs[i].text.getD "" ≠ "" →
        (get_query_embedding embedSvc fb
            (pyTake (docs[i].text.getD "") 1000)).length = v.length →
        h.score = (8/10) * ((7/10) *
              max ((docs[i].priority.getD (9/10)) - (i : ℚ) * (1/100)) (1/10)
            + (3/10) * dotQ v (get_query_embedding embedSvc fb
                (pyTake (docs[i].text.getD "") 1000)))
          + (2/10) * pyOverlap query (docs[i].text.getD "")) := by
  have hne : docs.isEmpty = false := by
    cases docs with
    | nil => simp at hi
    | cons d ds => rfl
  have hmem0 : (i, docs[i]) ∈ docs.enum := by
    rw [List.mk_mem_enum_iff_getElem?]
    simp [List.getElem?_eq_getElem hi]
  have hmem1 : externalHit embedSvc fb query query_vector (i, docs[i]) ∈
      docs.enum.map (externalHit embedSvc fb query query_vector) :=
    List.mem_map_of_mem _ hmem0
  have hmem2 : externalHit embedSvc fb query query_vector (i, docs[i]) ∈
      sortByDesc (fun h : Hit => h.score)
        (docs.enum.map (externalHit embedSvc fb query query_vector)) :=
    (sortByDesc_perm _ _).mem_iff.mpr hmem1
  obtain ⟨n, hn⟩ := exists_mem_enum_map addExternalRank hmem2
  refine ⟨addExternalRank
    (n, externalHit embedSvc fb query query_vector (i, docs[i])), ?_, ?_, ?_, ?_, ?_⟩
  · simp only [process_external_docs, hne, Bool.false_eq_true, if_false]
    exact hn
  · rfl
  · rfl
  · intro hcase
    rcases hcase with hqv | htext
    · subst hqv
      simp only [addExternalRank, externalHit]
      rw [max_comm]
      ring
    · simp only [addExternalRank, externalHit, htext]
      cases query_vector with
      | none =>
        rw [max_comm]
        ring
      | some v =>
        simp
        rw [max_comm]
        ring
  · intro v hqv htext hlen
    subst hqv
    simp only [addExternalRank, externalHit, if_pos htext, if_pos hlen]
    rw [max_comm]
    ring

/-- Witness for C4: the amended theorem applied to a single external doc
with priority `1/2` and an orthogonal doc embedding; the recorded score is
`0.8·(0.7·0.5 + 0.3·0) + 0.2·0 = 7/25`. -/
theorem C4_witness :
    ∃ h ∈ process_external_docs (fun _ => Except.ok [0, 1]) []
        [{ src_id := some "d", text := some "x", priority := some (1/2) }]
        "" (some [1, 0]),
      h.score = 7/25 := by
  obtain ⟨h, hmem, -, -, -, hscore⟩ := C4_theorem (fun _ => Except.ok [0, 1]) []
    [{ src_id := some "d", text := some "x", priority := some (1/2) }]
    "" (some [1, 0]) 0 (by decide)
  refine ⟨h, hmem, ?_⟩
  rw [hscore [1, 0] rfl (by decide) (by decide)]
  norm_num [pyOverlap, pyTokenSet, pySplit, strLower, wordsAux, dotQ,
    get_query_embedding, pyTake, max_eq_left]

/-- Services whose personalizer returns a vector of the wrong dimension,
making the logging `np.dot` in the body raise. -/
def svcBadPers : SearchServices :=
  { embedSvc := fun _ => Except.ok [1, 0], fb := [1, 0],
    qdrantSvc := fun _ _ _ => Except.ok [], persSvc := fun _ _ => [] }

/-- C10: `federated_search` never propagates an exception: for every input
and every combination of injected collaborator failures the result is a
success value, and any failure escaping the body (the dimension-mismatch
`np.dot` is the body's one unguarded operation) is converted by the outer
`except` into the successful empty result — indistinguishable from a query
that matched nothing. -/
theorem C10_theorem (svcs : SearchServices) (query tenant_id : String)
    (k_total : ℕ) (pa : Option ℚ) (en : Bool) (ext : List ExternalDoc)
    (ui : Bool) :
    isOkB (federated_search svcs query tenant_id k_total pa en ext ui) = true ∧
    (federated_search_body svcs query tenant_id k_total pa en ext ui =
        Except.error () →
      federated_search svcs query tenant_id k_total pa en ext ui =
        Except.ok []) := by
  constructor
  · exact federated_search_always_ok svcs query tenant_id k_total pa en ext ui
  · intro h
    unfold federated_search
    rw [h]

/-- Witness for C10: with a personalizer returning a wrong-dimension
vector, the body raises and the caller still receives the successful empty
result. -/
theorem C10_witness :
    federated_search svcBadPers "q" "t1" 5 none true [] true = Except.ok [] := by
  have h := C10_theorem svcBadPers "q" "t1" 5 none true [] true
  exact h.2 rfl

/-!
## Generic infrastructure for the fusion theorems
-/

/-- The position of the first occurrence of `a` (the length of the list
when absent). -/
def posOf {β : Type} [DecidableEq β] : List β → β → ℕ
  | [], _ => 0
  | x :: xs, a => if x = a then 0 else posOf xs a + 1

theorem posOf_cons_self {β : Type} [DecidableEq β] (a : β) (l : List β) :
    posOf (a :: l) a = 0 := by simp [posOf]

theorem posOf_cons_ne {β : Type} [DecidableEq β] {a b : β} (l : List β)
    (h : b ≠ a) : posOf (b :: l) a = posOf l a + 1 := by simp [posOf, h]

/-- In a list whose image under `f` has no duplicates, earlier elements
have strictly smaller first-occurrence positions (of their `f`-image)
than later ones. -/
theorem pairwise_lt_posOf {α β : Type} [DecidableEq β] (f : α → β) :
    ∀ (l : List α), (l.map f).Nodup →
      l.Pairwise (fun a b => posOf (l.map f) (f a) < posOf (l.map f) (f b)) := by
  intro l
  induction l with
  | nil => intro _; simp
  | cons x xs ih =>
    intro hnd
    rw [List.map_cons, List.nodup_cons] at hnd
    refine List.pairwise_cons.mpr ⟨?_, ?_⟩
    · intro y hy
      have hne : f x ≠ f y := by
        intro he
        exact hnd.1 (he ▸ List.mem_map_of_mem f hy)
      rw [List.map_cons, posOf_cons_self, posOf_cons_ne _ hne]
      exact Nat.succ_pos _
    · have hp := ih hnd.2
      refine hp.imp_of_mem ?_
      intro a b ha hb hlt
      have hfa : f x ≠ f a := fun he => hnd.1 (he ▸ List.mem_map_of_mem f ha)
      have hfb : f x ≠ f b := fun he => hnd.1 (he ▸ List.mem_map_of_mem f hb)
      rw [List.map_cons, posOf_cons_ne _ hfa, posOf_cons_ne _ hfb]
      exact Nat.succ_lt_succ hlt

/-- Transfer a `Pairwise` relation through `enum`-then-`map`. -/
theorem pairwise_enum_map {α β : Type} {R : α → α → Prop} {S : β → β → Prop}
    (l : List α) (g : ℕ × α → β) (h : l.Pairwise R)
    (hg : ∀ p q : ℕ × α, R p.2 q.2 → S (g p) (g q)) :
    (l.enum.map g).Pairwise S := by
  have h1 : l.enum.Pairwise (fun p q : ℕ × α => R p.2 q.2) := by
    have h0 : (l.enum.map Prod.snd).Pairwise R := by
      rw [List.enum_map_snd]
      exact h
    exact (List.pairwise_map).mp h0
  exact (List.pairwise_map).mpr (h1.imp (fun hpq => hg _ _ hpq))

/-- The rank column produced by an `enum`-then-`map` rank assignment is
exactly `[some 1, ..., some n]`. -/
theorem map_enum_rank {β : Type} (l : List β) (g : ℕ × β → β)
    (fr : β → Option ℕ) (hg : ∀ p, fr (g p) = some (p.1 + 1)) :
    (l.enum.map g).map fr = (List.range l.length).map (fun n => some (n + 1)) := by
  rw [List.map_map]
  have h1 : (fr ∘ g) = (fun p : ℕ × β => some (p.1 + 1)) := funext hg
  rw [h1]
  have h2 : (fun p : ℕ × β => some (p.1 + 1)) =
      (fun n : ℕ => some (n + 1)) ∘ Prod.fst := rfl
  rw [h2, ← List.map_map, List.enum_map_fst]

/-- The fields of a hit that `fuse_internal_and_external`'s sort key and
candidate identity depend on; `addFuseRank` leaves them unchanged. -/
def fuseProj (h : Hit) : String × Option String × ℚ × Option ℚ :=
  (h.id, h.fusion_source, h.score, h.rrf_score)

theorem get_sort_key_addFuseRank (p : ℕ × Hit) :
    get_sort_key (addFuseRank p) = get_sort_key p.2 := rfl

theorem fuseProj_addFuseRank (p : ℕ × Hit) :
    fuseProj (addFuseRank p) = fuseProj p.2 := rfl

/-- Every successful federated-search result was truncated with
`fused_results[:k_total]`, so it never exceeds `k_total` hits. -/
theorem federated_search_len_le (svcs : SearchServices)
    (query tenant_id : String) (k_total : ℕ) (pa : Option ℚ) (en : Bool)
    (ext : List ExternalDoc) (ui : Bool) :
    (resultHits (federated_search svcs query tenant_id k_total pa en ext ui)).length
      ≤ k_total := by
  unfold federated_search
  cases hb : federated_search_body svcs query tenant_id k_total pa en ext ui with
  | error e => simp [resultHits]
  | ok r =>
    simp only [resultHits]
    unfold federated_search_body at hb
    by_cases h1 : ui = false ∧ ext.isEmpty
    · rw [if_pos h1] at hb
      cases hb
      simp
    · rw [if_neg h1] at hb
      cases hq : resolve_query_vector svcs query pa en ui with
      | error e =>
        rw [hq] at hb
        exact absurd hb (by simp)
      | ok qv =>
        rw [hq, Except.ok.injEq] at hb
        subst hb
        exact List.length_take_le _ _

/-- C3 counterexample: an internal candidate with `rrf = 3/5` and an
external candidate with `score = 1/2` have equal effective scores
(`1/2 · 1.2 = 3/5`).  The claim's tie-break (`external > vector > lexical`,
then id ascending) would place the external candidate `"b"` first; the
source's stable sort keeps the internal candidate `"a"` first (insertion
order internal-then-external). -/
theorem C3_counterexample :
    (fuse_internal_and_external
        [{ id := "a", source := "semantic", rrf_score := some (3/5) }]
        [{ id := "b", source := "external", score := 1/2 }]).map
      (fun h => (h.id, h.fusion_source, h.final_rank)) =
      [("a", some "internal", some 1), ("b", some "external", some 2)] ∧
    get_sort_key (tagInternal
        { id := "a", source := "semantic", rrf_score := some (3/5) }) =
      get_sort_key (tagExternal
        { id := "b", source := "external", score := 1/2 }) := by
  have hne : ("internal" : String) ≠ "external" := by decide
  constructor
  · norm_num [fuse_internal_and_external, fuseCombined, tagInternal,
      tagExternal, get_sort_key, sortByDesc, insertDesc, addFuseRank,
      List.enum, List.enumFrom, Option.some.injEq, hne]
  · norm_num [get_sort_key, tagInternal, tagExternal, Option.some.injEq, hne]

/-- C3 (amended): in the combine step every candidate receives the
effective score `rrf(d)` (internal, `rrf > 0`) or `external_score(d) · 1.2`
(external); candidates are sorted by effective score descending with ties
broken by position in the internal-then-external concatenation (Python's
stable sort: internal candidates precede external ones of equal score, and
each side keeps its own order; the id plays no role); `final_rank = 1..N`
is assigned; and the orchestrator truncates every result to at most
`k_total` hits. -/
theorem C3_theorem (internal external : List Hit)
    (hint : ∀ h ∈ internal, 0 < h.rrf_score.getD 0)
    (hext : ∀ h ∈ external, h.rrf_score = none)
    (hnd : ((fuseCombined internal external).map fuseProj).Nodup) :
    List.Perm ((fuse_internal_and_external internal external).map fuseProj)
      ((fuseCombined internal external).map fuseProj) ∧
    (∀ h ∈ fuse_internal_and_external internal external,
      (h.fusion_source = some "internal" →
        h.fusion_score = some (h.rrf_score.getD 0)) ∧
      (h.fusion_source = some "external" →
        h.fusion_score = some (h.score * (6/5)))) ∧
    (fuse_internal_and_external internal external).Pairwise
      (fun a b => get_sort_key b ≤ get_sort_key a) ∧
    (fuse_internal_and_external internal external).Pairwise
      (fun a b => get_sort_key b < get_sort_key a ∨
        (get_sort_key a = get_sort_key b ∧
          posOf ((fuseCombined internal external).map fuseProj) (fuseProj a) <
          posOf ((fuseCombined internal external).map fuseProj) (fuseProj b))) ∧
    (fuse_internal_and_external internal external).map (fun h => h.final_rank) =
      (List.range (fuseCombined internal external).length).map
        (fun n => some (n + 1)) ∧
    (∀ (svcs : SearchServices) (query tenant_id : String) (k_total : ℕ)
      (pa : Option ℚ) (en : Bool) (ext : List ExternalDoc) (ui : Bool),
      (resultHits (federated_search svcs query tenant_id k_total pa en ext
        ui)).length ≤ k_total) := by
  have hout : fuse_internal_and_external internal external =
      (sortByDesc get_sort_key (fuseCombined internal external)).enum.map
        addFuseRank := rfl
  have hproj : (fuse_internal_and_external internal external).map fuseProj =
      (sortByDesc get_sort_key (fuseCombined internal external)).map fuseProj := by
    rw [hout, List.map_map]
    have h1 : (fuseProj ∘ addFuseRank) =
        fuseProj ∘ (Prod.snd : ℕ × Hit → Hit) := funext fuseProj_addFuseRank
    rw [h1, ← List.map_map, List.enum_map_snd]
  refine ⟨?_, ?_, ?_, ?_, ?_, ?_⟩
  · rw [hproj]
    exact (sortByDesc_perm get_sort_key _).map fuseProj
  · intro h hmem
    rw [hout] at hmem
    obtain ⟨p, hp, rfl⟩ := List.mem_map.mp hmem
    have hsnd : p.2 ∈ sortByDesc get_sort_key (fuseCombined internal external) := by
      obtain ⟨i, x⟩ := p
      exact List.getElem?_mem (List.mk_mem_enum_iff_getElem?.mp hp)
    have hC : p.2 ∈ fuseCombined internal external :=
      (sortByDesc_perm get_sort_key _).mem_iff.mp hsnd
    have hfs : (addFuseRank p).fusion_score = some (get_sort_key p.2) := rfl
    rcases List.mem_append.mp hC with hL | hR
    · obtain ⟨r, hr, hre⟩ := List.mem_map.mp hL
      constructor
      · intro _
        have hps : p.2.fusion_source = some "internal" := by
          rw [← hre]
          simp [tagInternal]
        have hfsne : ¬ p.2.fusion_source = some "external" := by
          rw [hps]
          decide
        have hrrf : 0 < p.2.rrf_score.getD 0 := by
          rw [← hre]
          exact hint r hr
        rw [hfs]
        show some (get_sort_key p.2) = some (p.2.rrf_score.getD 0)
        simp [get_sort_key, hrrf, hfsne]
      · intro hcon
        have hcon2 : p.2.fusion_source = some "external" := hcon
        rw [← hre] at hcon2
        simp only [tagInternal, Option.some.injEq] at hcon2
        exact absurd hcon2 (by decide)
    · obtain ⟨r, hr, hre⟩ := List.mem_map.mp hR
      constructor
      · intro hcon
        have hcon2 : p.2.fusion_source = some "internal" := hcon
        rw [← hre] at hcon2
        simp only [tagExternal, Option.some.injEq] at hcon2
        exact absurd hcon2 (by decide)
      · intro _
        have hps : p.2.fusion_source = some "external" := by
          rw [← hre]
          simp [tagExternal]
        have hrrf : p.2.rrf_score = none := by
          rw [← hre]
          exact hext r hr
        rw [hfs]
        show some (get_sort_key p.2) = some (p.2.score * (6/5))
        simp [get_sort_key, hrrf, hps]
  · rw [hout]
    refine pairwise_enum_map _ addFuseRank
      (sortByDesc_sorted get_sort_key (fuseCombined internal external)) ?_
    intro p q hpq
    rw [get_sort_key_addFuseRank, get_sort_key_addFuseRank]
    exact hpq
  · rw [hout]
    refine pairwise_enum_map _ addFuseRank
      (sortByDesc_stRel (pairwise_lt_posOf fuseProj _ hnd)) ?_
    intro p q hpq
    rw [StRel] at hpq
    rcases hpq with h1 | h1
    · exact Or.inl (by
        rw [get_sort_key_addFuseRank, get_sort_key_addFuseRank]
        exact h1)
    · refine Or.inr ⟨?_, ?_⟩
      · rw [get_sort_key_addFuseRank, get_sort_key_addFuseRank]
        exact h1.1
      · rw [fuseProj_addFuseRank, fuseProj_addFuseRank]
        exact h1.2
  · rw [hout, map_enum_rank _ addFuseRank (fun h => h.final_rank) (fun p => rfl)]
    rw [(sortByDesc_perm get_sort_key (fuseCombined internal external)).length_eq]
  · intro svcs query tenant_id k_total pa en ext ui
    exact federated_search_len_le svcs query tenant_id k_total pa en ext ui

/-- Witness for C3: the amended theorem applied to one internal and one
external candidate with tied effective scores; final ranks are `1, 2`. -/
theorem C3_witness :
    (fuse_internal_and_external
        [{ id := "a", source := "semantic", rrf_score := some (3/5) }]
        [{ id := "b", source := "external", score := 1/2 }]).map
      (fun h => h.final_rank) = [some 1, some 2] := by
  have h := C3_theorem
    [{ id := "a", source := "semantic", rrf_score := some (3/5) }]
    [{ id := "b", source := "external", score := 1/2 }]
    (by
      intro x hm
      rw [List.mem_singleton] at hm
      subst hm
      norm_num)
    (by
      intro x hm
      rw [List.mem_singleton] at hm
      subst hm
      rfl)
    (by
      simp [fuseCombined, fuseProj, tagInternal, tagExternal])
  rw [h.2.2.2.2.1]
  rfl

/-- Dict lookup `all_docs[i]` as a search by id (insertion-ordered list). -/
def findDoc (l : List Hit) (i : String) : Option Hit :=
  l.find? (fun d => d.id == i)

theorem bumpRRF_id (k : ℚ) (src : String) (rank : ℕ) (d : Hit) :
    (bumpRRF k src rank d).id = d.id := rfl

theorem freshRRF_id (k : ℚ) (src : String) (rank : ℕ) (r : Hit) :
    (freshRRF k src rank r).id = r.id := rfl

/-- Looking up in the in-place-updated `all_docs`: the update preserves
ids, so the lookup commutes with the update. -/
theorem findDoc_map_update (k : ℚ) (src : String) (rank : ℕ) (rid : String)
    (acc : List Hit) (i : String) :
    findDoc (acc.map (fun d => if d.id = rid then bumpRRF k src rank d else d)) i
      = (findDoc acc i).map (fun d => if d.id = rid then bumpRRF k src rank d else d) := by
  rw [findDoc, List.find?_map, findDoc]
  have h1 : ((fun d : Hit => d.id == i) ∘
      (fun d => if d.id = rid then bumpRRF k src rank d else d)) =
      (fun d : Hit => d.id == i) := by
    funext d
    by_cases hd : d.id = rid
    · simp [hd, bumpRRF_id]
    · simp [hd]
  rw [h1]

theorem findDoc_upsertRRF (k : ℚ) (src : String) (gr : Hit → ℕ)
    (acc : List Hit) (r : Hit) (i : String) :
    findDoc (upsertRRF k src gr acc r) i =
      if i = r.id then
        match findDoc acc i with
        | some d => some (bumpRRF k src (gr r) d)
        | none => some (freshRRF k src (gr r) r)
      else findDoc acc i := by
  by_cases hany : acc.any (fun d => d.id = r.id)
  · rw [upsertRRF]
    simp only [hany, if_true]
    rw [findDoc_map_update]
    by_cases hir : i = r.id
    · rw [if_pos hir]
      cases hfd : findDoc acc i with
      | none =>
        exfalso
        obtain ⟨d, hd, hdeq⟩ := List.any_eq_true.mp hany
        have h2 := List.find?_eq_none.mp hfd d hd
        simp only [beq_iff_eq] at h2
        refine h2 ?_
        rw [hir]
        simpa using hdeq
      | some d =>
        have hdid : d.id = i := by
          have h2 := List.find?_some hfd
          simpa using h2
        simp [hdid, hir]
    · cases hfd : findDoc acc i with
      | none => simp [hir]
      | some d =>
        have hdid : d.id = i := by
          have h2 := List.find?_some hfd
          simpa using h2
        have hdr : ¬ d.id = r.id := by
          rw [hdid]
          exact hir
        simp [hir, hdr]
  · rw [upsertRRF]
    have hc : (acc.any fun d => decide (d.id = r.id)) = false := by
      simpa using hany
    simp only [hc, Bool.false_eq_true, if_false]
    have hnone : findDoc acc r.id = none := by
      rw [findDoc, List.find?_eq_none]
      intro d hd
      simp only [beq_iff_eq]
      rw [List.any_eq_false] at hc
      have h3 := hc d hd
      simpa using h3
    show findDoc (acc ++ [freshRRF k src (gr r) r]) i = _
    rw [findDoc, List.find?_append]
    by_cases hir : i = r.id
    · rw [if_pos hir]
      have hacc2 : findDoc acc i = none := by
        rw [hir]
        exact hnone
      rw [show List.find? (fun d : Hit => d.id == i) acc = findDoc acc i from rfl,
        hacc2]
      simp [List.find?_cons, freshRRF_id, hir]
    · have h4 : List.find? (fun d : Hit => d.id == i) [freshRRF k src (gr r) r]
          = none := by
        rw [List.find?_eq_none]
        intro d hd
        rw [List.mem_singleton] at hd
        subst hd
        simp only [freshRRF_id, beq_iff_eq]
        intro hceq
        exact hir hceq.symm
      rw [h4]
      simp [findDoc, hir]

theorem ids_upsertRRF (k : ℚ) (src : String) (gr : Hit → ℕ)
    (acc : List Hit) (r : Hit) :
    (upsertRRF k src gr acc r).map (fun h => h.id) =
      if r.id ∈ acc.map (fun h => h.id) then acc.map (fun h => h.id)
      else acc.map (fun h => h.id) ++ [r.id] := by
  by_cases hmem : r.id ∈ acc.map (fun h => h.id)
  · have hany : (acc.any fun d => decide (d.id = r.id)) = true := by
      rw [List.any_eq_true]
      obtain ⟨d, hd, hde⟩ := List.mem_map.mp hmem
      exact ⟨d, hd, by simpa using hde⟩
    rw [upsertRRF]
    simp only [hany, if_true, if_pos hmem, List.map_map]
    refine List.map_congr_left ?_
    intro d _
    by_cases hdr : d.id = r.id
    · simp [hdr, bumpRRF_id]
    · simp [hdr]
  · have hany : (acc.any fun d => decide (d.id = r.id)) = false := by
      rw [List.any_eq_false]
      intro d hd
      simp only [decide_eq_true_eq]
      intro hc
      exact hmem (List.mem_map.mpr ⟨d, hd, hc⟩)
    rw [upsertRRF]
    simp only [hany, Bool.false_eq_true, if_false, if_neg hmem, List.map_append]
    simp [freshRRF_id]

/-- Folding one source into `all_docs`: the final lookup combines the
entry present before the fold (if any) with this source's entry for the
id (if any), provided the source's ids are free of duplicates. -/
theorem findDoc_fold_upsertRRF (k : ℚ) (src : String) (gr : Hit → ℕ) :
    ∀ (l : List Hit) (acc : List Hit), ((l.map (fun h => h.id)).Nodup) →
    ∀ i, findDoc (l.foldl (upsertRRF k src gr) acc) i =
      match l.find? (fun h => h.id == i), findDoc acc i with
      | some h, some d => some (bumpRRF k src (gr h) d)
      | some h, none => some (freshRRF k src (gr h) h)
      | none, _ => findDoc acc i := by
  intro l
  induction l with
  | nil =>
    intro acc _ i
    simp [List.foldl, List.find?]
  | cons h rest ih =>
    intro acc hnd i
    rw [List.map_cons, List.nodup_cons] at hnd
    rw [List.foldl_cons]
    rw [ih (upsertRRF k src gr acc h) hnd.2 i]
    by_cases hih : i = h.id
    · have hrest : rest.find? (fun x => x.id == i) = none := by
        rw [List.find?_eq_none]
        intro d hd
        simp only [beq_iff_eq]
        intro hc
        exact hnd.1 (hih ▸ hc ▸ List.mem_map_of_mem (fun h => h.id) hd)
      have hhead : List.find? (fun x : Hit => x.id == i) (h :: rest) = some h := by
        rw [List.find?_cons]
        simp [hih]
      rw [hrest, hhead, findDoc_upsertRRF, if_pos hih]
      cases findDoc acc i with
      | none => rfl
      | some d => rfl
    · have hhead : List.find? (fun x : Hit => x.id == i) (h :: rest) =
          rest.find? (fun x => x.id == i) := by
        rw [List.find?_cons]
        have : (h.id == i) = false := by
          simp only [beq_eq_false_iff_ne, ne_eq]
          intro hc
          exact hih hc.symm
        simp [this]
      rw [hhead, findDoc_upsertRRF, if_neg hih]

/-- Folding one source into `all_docs` appends exactly the ids not seen
before, in source order. -/
theorem ids_fold_upsertRRF (k : ℚ) (src : String) (gr : Hit → ℕ) :
    ∀ (l : List Hit) (acc : List Hit), ((l.map (fun h => h.id)).Nodup) →
    (l.foldl (upsertRRF k src gr) acc).map (fun h => h.id) =
      acc.map (fun h => h.id) ++
        (l.map (fun h => h.id)).filter
          (fun i => decide (¬ i ∈ acc.map (fun h => h.id))) := by
  intro l
  induction l with
  | nil =>
    intro acc _
    simp
  | cons h rest ih =>
    intro acc hnd
    rw [List.map_cons, List.nodup_cons] at hnd
    rw [List.foldl_cons, ih (upsertRRF k src gr acc h) hnd.2, ids_upsertRRF]
    by_cases hmem : h.id ∈ acc.map (fun x => x.id)
    · rw [if_pos hmem, List.map_cons, List.filter_cons]
      simp [hmem]
    · rw [if_neg hmem, List.map_cons, List.filter_cons]
      have hfc : (rest.map (fun x => x.id)).filter
          (fun i => decide (¬ i ∈ acc.map (fun x => x.id) ++ [h.id])) =
          (rest.map (fun x => x.id)).filter
          (fun i => decide (¬ i ∈ acc.map (fun x => x.id))) := by
        refine List.filter_congr ?_
        intro x hx
        have hxh : x ≠ h.id := by
          intro hc
          exact hnd.1 (hc ▸ hx)
        simp [List.mem_append, hxh]
      rw [hfc]
      simp [hmem]

/-- In a list with duplicate-free ids, looking up a member's id finds that
member. -/
theorem findDoc_eq_of_mem :
    ∀ (l : List Hit), ((l.map (fun h => h.id)).Nodup) →
    ∀ d ∈ l, findDoc l d.id = some d := by
  intro l
  induction l with
  | nil => intro _ d hd; simp at hd
  | cons x rest ih =>
    intro hnd d hd
    rw [List.map_cons, List.nodup_cons] at hnd
    rcases List.mem_cons.mp hd with hdx | hdr
    · subst hdx
      rw [findDoc, List.find?_cons]
      simp
    · have hne : (x.id == d.id) = false := by
        simp only [beq_eq_false_iff_ne, ne_eq]
        intro hc
        exact hnd.1 (hc ▸ List.mem_map_of_mem (fun h => h.id) hdr)
      rw [findDoc, List.find?_cons]
      simp only [hne]
      exact ih hnd.2 d hdr

/-- The ids accumulated by `rrfAccum`: all semantic ids in order, then the
lexical-only ids in order. -/
theorem ids_rrfAccum (sem lex : List Hit) (k : ℚ)
    (hs : ((sem.map (fun h => h.id)).Nodup))
    (hl : ((lex.map (fun h => h.id)).Nodup)) :
    (rrfAccum sem lex k).map (fun h => h.id) =
      sem.map (fun h => h.id) ++
        (lex.map (fun h => h.id)).filter
          (fun i => decide (¬ i ∈ sem.map (fun h => h.id))) := by
  rw [rrfAccum, ids_fold_upsertRRF _ _ _ _ _ hl,
    ids_fold_upsertRRF _ _ _ _ _ hs]
  simp

/-- The accumulated ids are duplicate-free. -/
theorem nodup_ids_rrfAccum (sem lex : List Hit) (k : ℚ)
    (hs : ((sem.map (fun h => h.id)).Nodup))
    (hl : ((lex.map (fun h => h.id)).Nodup)) :
    ((rrfAccum sem lex k).map (fun h => h.id)).Nodup := by
  rw [ids_rrfAccum sem lex k hs hl, List.nodup_append]
  refine ⟨hs, hl.filter _, ?_⟩
  intro x hx hx2
  have := List.of_mem_filter hx2
  simp only [decide_eq_true_eq] at this
  exact this hx

/-- Lookup in the full `all_docs` accumulation, in terms of each source's
entry for the id. -/
theorem findDoc_rrfAccum (sem lex : List Hit) (k : ℚ)
    (hs : ((sem.map (fun h => h.id)).Nodup))
    (hl : ((lex.map (fun h => h.id)).Nodup)) (i : String) :
    findDoc (rrfAccum sem lex k) i =
      match sem.find? (fun h => h.id == i), lex.find? (fun h => h.id == i) with
      | some a, some b => some (bumpRRF k "lexical" (b.lexical_rank.getD 999)
          (freshRRF k "semantic" (a.semantic_rank.getD 999) a))
      | some a, none => some (freshRRF k "semantic" (a.semantic_rank.getD 999) a)
      | none, some b => some (freshRRF k "lexical" (b.lexical_rank.getD 999) b)
      | none, none => none := by
  rw [rrfAccum, findDoc_fold_upsertRRF _ _ _ _ _ hl,
    findDoc_fold_upsertRRF _ _ _ _ _ hs]
  rw [show findDoc ([] : List Hit) i = none from rfl]
  cases sem.find? (fun h => h.id == i) with
  | none =>
    cases lex.find? (fun h => h.id == i) with
    | none => rfl
    | some b => rfl
  | some a =>
    cases lex.find? (fun h => h.id == i) with
    | none => rfl
    | some b => rfl

/-- Every accumulated document's `rrf_score` is the sum of the RRF terms
of the sources containing it. -/
theorem rrf_score_rrfAccum (sem lex : List Hit) (k : ℚ)
    (hs : ((sem.map (fun h => h.id)).Nodup))
    (hl : ((lex.map (fun h => h.id)).Nodup)) :
    ∀ d ∈ rrfAccum sem lex k, d.rrf_score = some (
      (match sem.find? (fun h => h.id == d.id) with
       | some h => rrfTerm k (h.semantic_rank.getD 999)
       | none => 0) +
      (match lex.find? (fun h => h.id == d.id) with
       | some h => rrfTerm k (h.lexical_rank.getD 999)
       | none => 0)) := by
  intro d hd
  have h1 := findDoc_eq_of_mem _ (nodup_ids_rrfAccum sem lex k hs hl) d hd
  rw [findDoc_rrfAccum sem lex k hs hl d.id] at h1
  cases hsf : sem.find? (fun h => h.id == d.id) with
  | some a =>
    cases hlf : lex.find? (fun h => h.id == d.id) with
    | some b =>
      rw [hsf, hlf] at h1
      injection h1 with h2
      rw [← h2]
      simp [bumpRRF, freshRRF]
    | none =>
      rw [hsf, hlf] at h1
      injection h1 with h2
      rw [← h2]
      simp [freshRRF]
  | none =>
    cases hlf : lex.find? (fun h => h.id == d.id) with
    | some b =>
      rw [hsf, hlf] at h1
      injection h1 with h2
      rw [← h2]
      simp [freshRRF]
    | none =>
      rw [hsf, hlf] at h1
      exact absurd h1 (by simp)

/-- C2 counterexample: vector list `[B(rank 1), A(rank 2)]`, lexical list
`[A(rank 1), B(rank 2)]`, `k = 60`.  Both documents appear in both sources
and have the equal summed score `1/61 + 1/62 = 123/3782`.  The claim's
tie-break (b) (`lower doc_id first`, tie-break (a) not separating two
vector-present documents) requires `A` before `B`; the source's stable
sort keeps the insertion order and returns `B` first. -/
theorem C2_counterexample :
    (reciprocal_rank_fusion
        [{ id := "B", semantic_rank := some 1 },
         { id := "A", semantic_rank := some 2 }]
        [{ id := "A", lexical_rank := some 1 },
         { id := "B", lexical_rank := some 2 }] 60).map
      (fun h => (h.id, h.rrf_score)) =
      [("B", some (123/3782)), ("A", some (123/3782))] ∧
    ("A" : String) < "B" := by
  have hAB : ("A" : String) ≠ "B" := by decide
  have hBA : ("B" : String) ≠ "A" := by decide
  constructor
  · norm_num [reciprocal_rank_fusion, rrfAccum, upsertRRF, bumpRRF, freshRRF,
      rrfTerm, sortByDesc, insertDesc, addFinalRank, List.enum, List.enumFrom,
      List.foldl, Option.getD, lt_self_iff_false, hAB, hBA]
  · rw [String.lt_iff_toList_lt]
    decide

/-- C2 (amended): for every document in the vector (semantic) or lexical
list, the internal fusion keeps one entry (vector documents first in
vector order, then lexical-only documents in lexical order) whose
`rrf_score` is the sum over the sources containing it of
`1 / (k + rank_in_source)` — a document in both sources contributes once
with both terms summed; the fused list is ordered by `rrf_score`
descending, with ties broken by insertion order (Python's stable sort):
documents present in the vector list, in vector order, precede
lexical-only documents, in lexical order; the doc id plays no role.
`final_rank = 1..N` is assigned. -/
theorem C2_theorem (sem lex : List Hit) (k : ℚ)
    (hs : ((sem.map (fun h => h.id)).Nodup))
    (hl : ((lex.map (fun h => h.id)).Nodup)) :
    ((rrfAccum sem lex k).map (fun h => h.id) =
      sem.map (fun h => h.id) ++
        (lex.map (fun h => h.id)).filter
          (fun i => decide (¬ i ∈ sem.map (fun h => h.id)))) ∧
    List.Perm ((reciprocal_rank_fusion sem lex k).map
        (fun h => (h.id, h.rrf_score)))
      ((rrfAccum sem lex k).map (fun h => (h.id, h.rrf_score))) ∧
    (∀ d ∈ reciprocal_rank_fusion sem lex k, d.rrf_score = some (
      (match sem.find? (fun h => h.id == d.id) with
       | some h => rrfTerm k (h.semantic_rank.getD 999)
       | none => 0) +
      (match lex.find? (fun h => h.id == d.id) with
       | some h => rrfTerm k (h.lexical_rank.getD 999)
       | none => 0))) ∧
    (reciprocal_rank_fusion sem lex k).Pairwise
      (fun a b => b.rrf_score.getD 0 ≤ a.rrf_score.getD 0) ∧
    (reciprocal_rank_fusion sem lex k).Pairwise
      (fun a b => b.rrf_score.getD 0 < a.rrf_score.getD 0 ∨
        (a.rrf_score.getD 0 = b.rrf_score.getD 0 ∧
          posOf ((rrfAccum sem lex k).map (fun h => h.id)) a.id <
          posOf ((rrfAccum sem lex k).map (fun h => h.id)) b.id)) ∧
    (reciprocal_rank_fusion sem lex k).map (fun h => h.final_rank) =
      (List.range (rrfAccum sem lex k).length).map (fun n => some (n + 1)) := by
  have hout : reciprocal_rank_fusion sem lex k =
      (sortByDesc (fun d : Hit => d.rrf_score.getD 0)
        (rrfAccum sem lex k)).enum.map addFinalRank := rfl
  refine ⟨ids_rrfAccum sem lex k hs hl, ?_, ?_, ?_, ?_, ?_⟩
  · have hmap : (reciprocal_rank_fusion sem lex k).map
        (fun h => (h.id, h.rrf_score)) =
        (sortByDesc (fun d : Hit => d.rrf_score.getD 0)
          (rrfAccum sem lex k)).map (fun h => (h.id, h.rrf_score)) := by
      rw [hout, List.map_map]
      have h1 : ((fun h : Hit => (h.id, h.rrf_score)) ∘ addFinalRank) =
          (fun h : Hit => (h.id, h.rrf_score)) ∘ (Prod.snd : ℕ × Hit → Hit) :=
        funext (fun p => rfl)
      rw [h1, ← List.map_map, List.enum_map_snd]
    rw [hmap]
    exact (sortByDesc_perm _ _).map _
  · intro d hd
    rw [hout] at hd
    obtain ⟨p, hp, rfl⟩ := List.mem_map.mp hd
    have hsnd : p.2 ∈ sortByDesc (fun d : Hit => d.rrf_score.getD 0)
        (rrfAccum sem lex k) := by
      obtain ⟨i, x⟩ := p
      exact List.getElem?_mem (List.mk_mem_enum_iff_getElem?.mp hp)
    have hacc : p.2 ∈ rrfAccum sem lex k :=
      (sortByDesc_perm _ _).mem_iff.mp hsnd
    exact rrf_score_rrfAccum sem lex k hs hl p.2 hacc
  · rw [hout]
    refine pairwise_enum_map _ addFinalRank
      (sortByDesc_sorted (fun d : Hit => d.rrf_score.getD 0) _) ?_
    intro p q hpq
    exact hpq
  · rw [hout]
    refine pairwise_enum_map _ addFinalRank
      (sortByDesc_stRel (pairwise_lt_posOf (fun h => h.id) _
        (nodup_ids_rrfAccum sem lex k hs hl))) ?_
    intro p q hpq
    rw [StRel] at hpq
    exact hpq
  · rw [hout, map_enum_rank _ addFinalRank (fun h => h.final_rank) (fun p => rfl),
      (sortByDesc_perm (fun d : Hit => d.rrf_score.getD 0)
        (rrfAccum sem lex k)).length_eq]

/-- Witness for C2: the amended theorem applied to the two-document
crossed ranking; the fused list carries final ranks `1, 2`. -/
theorem C2_witness :
    (reciprocal_rank_fusion
        [{ id := "B", semantic_rank := some 1 },
         { id := "A", semantic_rank := some 2 }]
        [{ id := "A", lexical_rank := some 1 },
         { id := "B", lexical_rank := some 2 }] 60).map (fun h => h.final_rank)
      = [some 1, some 2] := by
  have h := C2_theorem
    [{ id := "B", semantic_rank := some 1 },
     { id := "A", semantic_rank := some 2 }]
    [{ id := "A", lexical_rank := some 1 },
     { id := "B", lexical_rank := some 2 }] 60
    (by decide) (by decide)
  rw [h.2.2.2.2.2]
  decide

/-- Truncation preserves a positional column pattern. -/
theorem rank_pattern_take {γ : Type} (l : List Hit) (fr : Hit → γ)
    (g : ℕ → γ) (k : ℕ) (h : l.map fr = (List.range l.length).map g) :
    (l.take k).map fr = (List.range (l.take k).length).map g := by
  rw [List.map_take, h, ← List.map_take, List.take_range, List.length_take]

/-- An `enum`-then-`map` rank assignment yields the column
`[some 1, ..., some n]` over its own length. -/
theorem enum_rank_pattern (l : List Hit) (g : ℕ × Hit → Hit)
    (fr : Hit → Option ℕ) (hg : ∀ p, fr (g p) = some (p.1 + 1)) :
    (l.enum.map g).map fr =
      (List.range (l.enum.map g).length).map (fun n => some (n + 1)) := by
  have hlen : (l.enum.map g).length = l.length := by simp
  rw [map_enum_rank l g fr hg, hlen]

/-- A hit built by `externalHit` carries no `final_rank`. -/
theorem externalHit_final_rank (embedSvc : String → Except Unit Vec) (fb : Vec)
    (query : String) (qv : Option Vec) (p : ℕ × ExternalDoc) :
    (externalHit embedSvc fb query qv p).final_rank = none := by
  cases qv with
  | none => rfl
  | some v => rfl

/-- The ephemeral output column: every hit has `final_rank = none` and
`final_external_rank = some (position + 1)`. -/
theorem process_external_docs_rank_pattern (embedSvc : String → Except Unit Vec)
    (fb : Vec) (docs : List ExternalDoc) (query : String) (qv : Option Vec) :
    (process_external_docs embedSvc fb docs query qv).map
      (fun h => (h.final_rank, h.final_external_rank)) =
      (List.range (process_external_docs embedSvc fb docs query qv).length).map
        (fun n => ((none : Option ℕ), some (n + 1))) := by
  by_cases hemp : docs.isEmpty
  · rw [process_external_docs, if_pos hemp]
    simp
  · rw [process_external_docs, if_neg hemp]
    set sorted := sortByDesc (fun h : Hit => h.score)
      (docs.enum.map (externalHit embedSvc fb query qv)) with hsorted
    have hnone : ∀ x ∈ sorted, x.final_rank = none := by
      intro x hx
      have hx2 : x ∈ docs.enum.map (externalHit embedSvc fb query qv) :=
        (sortByDesc_perm _ _).mem_iff.mp hx
      obtain ⟨p, _, rfl⟩ := List.mem_map.mp hx2
      exact externalHit_final_rank embedSvc fb query qv p
    rw [List.map_map]
    have h1 : ∀ p ∈ sorted.enum,
        ((fun h : Hit => (h.final_rank, h.final_external_rank)) ∘
          addExternalRank) p =
        ((fun n : ℕ => ((none : Option ℕ), some (n + 1))) ∘ Prod.fst) p := by
      intro p hp
      have hmem : p.2 ∈ sorted := by
        obtain ⟨i, x⟩ := p
        exact List.getElem?_mem (List.mk_mem_enum_iff_getElem?.mp hp)
      have hfr : p.2.final_rank = none := hnone p.2 hmem
      simp only [Function.comp_apply, addExternalRank]
      rw [show ({ p.2 with final_external_rank := some (p.1 + 1) } : Hit).final_rank
          = p.2.final_rank from rfl]
      rw [hfr]
    rw [List.map_congr_left h1]
    have h2 : sorted.enum.map
        ((fun n : ℕ => ((none : Option ℕ), some (n + 1))) ∘ Prod.fst) =
        (sorted.enum.map Prod.fst).map
          (fun n : ℕ => ((none : Option ℕ), some (n + 1))) := by
      rw [List.map_map]
    rw [h2, List.enum_map_fst]
    have h3 : (sorted.enum.map addExternalRank).length = sorted.length := by
      simp
    rw [h3]

/-- With internal search enabled, the resolved query vector (when the
body does not fail) is always present. -/
theorem resolve_some_of_ui (svcs : SearchServices) (query : String)
    (pa : Option ℚ) (en : Bool) (qv : Option Vec)
    (h : resolve_query_vector svcs query pa en true = Except.ok qv) :
    ∃ v, qv = some v := by
  rw [resolve_query_vector] at h
  simp only [if_true] at h
  by_cases hen : en = true
  · rw [hen] at h
    simp only [if_true] at h
    split at h
    · exact ⟨_, (Except.ok.injEq _ _ ▸ h).symm⟩
    · exact absurd h (by simp)
  · rw [Bool.not_eq_true] at hen
    rw [hen] at h
    simp only [Bool.false_eq_true, if_false] at h
    exact ⟨_, (Except.ok.injEq _ _ ▸ h).symm⟩

theorem rank_pattern_rrf (sem lex : List Hit) (k : ℚ) :
    (reciprocal_rank_fusion sem lex k).map (fun h => h.final_rank) =
      (List.range (reciprocal_rank_fusion sem lex k).length).map
        (fun n => some (n + 1)) :=
  enum_rank_pattern _ addFinalRank _ (fun _ => rfl)

theorem rank_pattern_fuse (internal external : List Hit) :
    (fuse_internal_and_external internal external).map (fun h => h.final_rank) =
      (List.range (fuse_internal_and_external internal external).length).map
        (fun n => some (n + 1)) :=
  enum_rank_pattern _ addFuseRank _ (fun _ => rfl)

/-- With a query vector present (the internal-search path), every fused
result list carries `final_rank = 1..N`. -/
theorem fused_results_rank_pattern (svcs : SearchServices) (query : String)
    (tenant_id : String) (k_total : ℕ) (ext : List ExternalDoc) (v : Vec) :
    (fused_results svcs query tenant_id k_total ext (some v)).map
      (fun h => h.final_rank) =
      (List.range (fused_results svcs query tenant_id k_total ext
        (some v)).length).map (fun n => some (n + 1)) := by
  rw [fused_results]
  by_cases hext : ext.isEmpty
  · simp only [hext, if_true]
    by_cases hif : (semantic_search svcs.qdrantSvc tenant_id v
        (min (k_total * 2) 50)).isEmpty = false ∨
        (lexical_search query tenant_id (min (k_total * 2) 50)).isEmpty = false
    · simp only [if_pos hif]
      exact rank_pattern_rrf _ _ _
    · simp only [if_neg hif]
      simp
  · simp only [hext, Bool.false_eq_true, if_false]
    by_cases heph : (process_external_docs svcs.embedSvc svcs.fb ext query
        (some v)).isEmpty = false
    · simp only [if_pos heph]
      exact rank_pattern_fuse _ _
    · simp only [if_neg heph]
      by_cases hif : (semantic_search svcs.qdrantSvc tenant_id v
          (min (k_total * 2) 50)).isEmpty = false ∨
          (lexical_search query tenant_id (min (k_total * 2) 50)).isEmpty = false
      · simp only [if_pos hif]
        exact rank_pattern_rrf _ _ _
      · simp only [if_neg hif]
        simp

/-- C1 (amended): when internal search is enabled, the `final_rank` values
of a federated-search response are exactly `1..N` in order (each rank
assigned, unique, starting at 1), for every combination of sources and
injected failures.  In the external-only path, however, the returned hits
carry NO `final_rank` at all — they carry `final_external_rank = 1..N`
instead. -/
theorem C1_theorem (svcs : SearchServices) (query tenant_id : String)
    (k_total : ℕ) (pa : Option ℚ) (en : Bool) (ext : List ExternalDoc)
    (ui : Bool) :
    (ui = true →
      (resultHits (federated_search svcs query tenant_id k_total pa en ext
        ui)).map (fun h => h.final_rank) =
      (List.range (resultHits (federated_search svcs query tenant_id k_total
        pa en ext ui)).length).map (fun n => some (n + 1))) ∧
    (ui = false → ext ≠ [] →
      (resultHits (federated_search svcs query tenant_id k_total pa en ext
        ui)).map (fun h => (h.final_rank, h.final_external_rank)) =
      (List.range (resultHits (federated_search svcs query tenant_id k_total
        pa en ext ui)).length).map
        (fun n => ((none : Option ℕ), some (n + 1)))) := by
  constructor
  · intro hui
    subst hui
    unfold federated_search
    cases hb : federated_search_body svcs query tenant_id k_total pa en ext
        true with
    | error e => simp [resultHits]
    | ok r =>
      simp only [resultHits]
      unfold federated_search_body at hb
      rw [if_neg (by simp)] at hb
      cases hq : resolve_query_vector svcs query pa en true with
      | error e =>
        rw [hq] at hb
        exact absurd hb (by simp)
      | ok qv =>
        rw [hq, Except.ok.injEq] at hb
        subst hb
        obtain ⟨v, rfl⟩ := resolve_some_of_ui svcs query pa en qv hq
        exact rank_pattern_take _ _ _ k_total
          (fused_results_rank_pattern svcs query tenant_id k_total ext v)
  · intro hui hext
    subst hui
    have hie : ext.isEmpty = false := by
      cases ext with
      | nil => exact absurd rfl hext
      | cons d ds => rfl
    unfold federated_search
    cases hb : federated_search_body svcs query tenant_id k_total pa en ext
        false with
    | error e => simp [resultHits]
    | ok r =>
      simp only [resultHits]
      unfold federated_search_body at hb
      rw [if_neg (by simp [hie])] at hb
      have hb2 : Except.ok ((fused_results svcs query tenant_id k_total ext
          none).take k_total) = Except.ok r := hb
      injection hb2 with hb3
      subst hb3
      have hfr : fused_results svcs query tenant_id k_total ext none =
          process_external_docs svcs.embedSvc svcs.fb ext query none := by
        rw [fused_results]
        simp only [hie, Bool.false_eq_true, if_false]
      rw [hfr]
      exact rank_pattern_take _ _ _ k_total
        (process_external_docs_rank_pattern svcs.embedSvc svcs.fb ext query
          none)

/-- C1 counterexample: an external-only request returns a nonempty result
whose hit carries NO `final_rank` (the field is absent; only
`final_external_rank` is set), so the `final_rank` values of this response
are not a permutation of `1..N`. -/
theorem C1_counterexample :
    (resultHits (federated_search svcOkEmpty "q" "t1" 3 none true
        [{ src_id := some "d1", text := some "alpha", priority := some (9/10) }]
        false)).map (fun h => (h.final_rank, h.final_external_rank)) =
      [(none, some 1)] := by
  norm_num [federated_search, federated_search_body, resolve_query_vector,
    fused_results, resultHits, svcOkEmpty, process_external_docs, externalHit,
    addExternalRank, sortByDesc, insertDesc, pyOverlap, pyTokenSet, pySplit,
    strLower, wordsAux, pyTake, get_query_embedding, List.enum, List.enumFrom]

/-- Witness for C1: the amended theorem applied to an internal-search
request (with failing collaborators); the two returned hits carry final
ranks `1, 2`. -/
theorem C1_witness :
    (resultHits (federated_search svcAllFail "q" "t1" 2 none true [] true)).map
      (fun h => h.final_rank) = [some 1, some 2] := by
  have h0 := C1_theorem svcAllFail "q" "t1" 2 none true [] true
  have h := h0.1 rfl
  rw [h]
  norm_num [federated_search, federated_search_body, resolve_query_vector,
    fused_results, pyAlpha, resultHits, svcAllFail, get_query_embedding,
    semantic_search, lexical_search, pySplit, strLower, wordsAux,
    reciprocal_rank_fusion, rrfAccum, addFinalRank, upsertRRF, bumpRRF,
    freshRRF, rrfTerm, sortByDesc, insertDesc, List.foldl, List.enum,
    List.enumFrom]
  decide
